import Mathlib

/-!
Shallow embedding of the content-distribution and normalization core of the
PPT-and-DOC generator (backend/services/docx_generator.py,
backend/services/content_generator.py, backend/services/pptx_generator.py,
backend/models/schemas.py), together with proofs settling the spec claims.

Python strings are modelled as `List Char`; dict-shaped records as structures
of `Option`-fields over a JSON-value type; fallible code as `Except`.
-/

namespace PptDoc

/-! ## Character classes and elementary string operations -/

/-- Whitespace as used by Python `str.strip()` / `\s` (ASCII fragment). -/
def isWS (c : Char) : Bool := c.isWhitespace

/-- A `\w` regex character: letters, digits, underscore (ASCII fragment). -/
def isWordChar (c : Char) : Bool := c.isAlphanum || c = '_'

/-- Python `str.strip()`: drop whitespace from both ends. -/
def pyStrip (l : List Char) : List Char :=
  ((l.dropWhile isWS).reverse.dropWhile isWS).reverse

/-- Python `str.lower()` (per-character, ASCII fragment). -/
def lowerStr (l : List Char) : List Char := l.map Char.toLower

/-- `text.split("\n")`: split on newline, keeping empty pieces. -/
def splitNL : List Char → List (List Char)
  | [] => [[]]
  | c :: cs =>
    if c = '\n' then [] :: splitNL cs
    else
      match splitNL cs with
      | [] => [[c]]
      | l :: ls => (c :: l) :: ls

/-- `sep.join(pieces)` for a one-character separator. -/
def joinSep (sep : Char) : List (List Char) → List Char
  | [] => []
  | [x] => x
  | x :: y :: rest => x ++ sep :: joinSep sep (y :: rest)

/-- `"\n".join(lines)`. -/
def joinNL (ls : List (List Char)) : List Char := joinSep '\n' ls

/-- `text.replace("\r\n", "\n")` (left-to-right, non-overlapping). -/
def replaceCRLF : List Char → List Char
  | [] => []
  | [c] => [c]
  | c :: d :: rest =>
    if c = '\r' ∧ d = '\n' then '\n' :: replaceCRLF rest
    else c :: replaceCRLF (d :: rest)

/-- `text.replace("\r", "\n")`. -/
def mapCR (l : List Char) : List Char := l.map (fun c => if c = '\r' then '\n' else c)

/-- `text.replace("\\n", "\n")`: literal backslash-n becomes a newline
(left-to-right, non-overlapping). -/
def replaceEsc : List Char → List Char
  | [] => []
  | [c] => [c]
  | c :: d :: rest =>
    if c = '\\' ∧ d = 'n' then '\n' :: replaceEsc rest
    else c :: replaceEsc (d :: rest)

/-- The newline normalisation prefix of `_clean_section_content`:
`raw.replace("\r\n","\n").replace("\r","\n").replace("\\n","\n")`. -/
def normalizeNewlines (raw : List Char) : List Char :=
  replaceEsc (mapCR (replaceCRLF raw))

/-- No literal backslash-n escape remains: no adjacent `'\\'`, `'n'` pair. -/
def NoEsc (l : List Char) : Prop :=
  List.Chain' (fun a b => ¬(a = '\\' ∧ b = 'n')) l

/-! ## The Text Normalizer (`_clean_section_content`) -/

/-- Python's `in` on strings: `pat` occurs as a contiguous substring. -/
def hasSub (pat : List Char) : List Char → Bool
  | [] => pat.isEmpty
  | c :: rest => pat.isPrefixOf (c :: rest) || hasSub pat rest

/-- The meta-line test of `_clean_section_content` on a lowered, stripped first
line `f`: document title, `"page ..."` with `"section"` inside, `"section "`
prefix, the heading itself, or the heading followed by a colon. -/
def isMetaLine (dtLow hdLow f : List Char) : Bool :=
  f == dtLow
    || ("page ".data.isPrefixOf f && hasSub "section".data f)
    || "section ".data.isPrefixOf f
    || f == hdLow
    || (!hdLow.isEmpty && (hdLow ++ [':']).isPrefixOf f)

/-- The `while lines:` loop of `_clean_section_content`: pop blank lines and
meta lines from the top, but keep a meta line that is the last non-blank
content (`len(lines) > 1 and any(l.strip() for l in lines[1:])`). -/
def stripMeta (dtLow hdLow : List Char) : List (List Char) → List (List Char)
  | [] => []
  | l :: rest =>
    let first := pyStrip l
    if first.isEmpty then stripMeta dtLow hdLow rest
    else if isMetaLine dtLow hdLow (lowerStr first) then
      if !rest.isEmpty && rest.any (fun m => !(pyStrip m).isEmpty) then
        stripMeta dtLow hdLow rest
      else l :: rest
    else l :: rest

/-- The duplicate-blank-line collapse of `_clean_section_content`; the flag
records whether the last line appended to `cleaned` was blank. -/
def collapseBlanks (prevBlank : Bool) : List (List Char) → List (List Char)
  | [] => []
  | l :: rest =>
    if l.isEmpty then
      if prevBlank then collapseBlanks true rest
      else [] :: collapseBlanks true rest
    else l :: collapseBlanks false rest

/-- `while cleaned and cleaned[0] == "": cleaned.pop(0)`. -/
def trimLead (ls : List (List Char)) : List (List Char) :=
  ls.dropWhile (fun l => l.isEmpty)

/-- `while cleaned and cleaned[-1] == "": cleaned.pop()`. -/
def trimTrail (ls : List (List Char)) : List (List Char) :=
  (ls.reverse.dropWhile (fun l => l.isEmpty)).reverse

/-- The cleaned line list of `_clean_section_content` (everything between the
newline normalisation and the final `"\n".join(...).strip()`). -/
def cleanedLines (docTitle heading raw : List Char) : List (List Char) :=
  trimTrail (trimLead (collapseBlanks false
    (stripMeta (lowerStr (pyStrip docTitle)) (lowerStr (pyStrip heading))
      ((splitNL (normalizeNewlines raw)).map pyStrip))))

/-- `_clean_section_content(doc_title, heading, raw)` from
`backend/services/docx_generator.py`. -/
def cleanSectionContent (docTitle heading raw : List Char) : List Char :=
  if raw.isEmpty then []
  else pyStrip (joinNL (cleanedLines docTitle heading raw))

/-! ## Sections and the Section Splitter (`split_section_into_parts`) -/

/-- A document section: `{"heading": ..., "content": ...}`. -/
structure Sec where
  heading : List Char
  content : List Char
deriving DecidableEq

/-- Maximal runs of `\w` characters (with fuel, so that the definition is
structurally recursive and evaluates in the kernel); fuel at least the
length of the text is always enough. -/
def wordRunsF : Nat → List Char → List (List Char)
  | 0, _ => []
  | _, [] => []
  | fuel + 1, c :: cs =>
    if isWordChar c then
      (c :: cs.takeWhile isWordChar) :: wordRunsF fuel (cs.dropWhile isWordChar)
    else wordRunsF fuel cs

/-- Maximal runs of `\w` characters, as found by `re.findall(r"\w+", s)`. -/
def wordRuns (l : List Char) : List (List Char) := wordRunsF l.length l

/-- `len(re.findall(r"\w+", s))`, the word counter of
`distribute_sections_across_pages`. -/
def wordCount (l : List Char) : Nat := (wordRuns l).length

/-- Sentence splitting with fuel (structural recursion; fuel at least the
length of the text is always enough). -/
def sentSplitF : Nat → List Char → List (List Char)
  | 0, l => [l]
  | _ + 1, [] => [[]]
  | fuel + 1, c :: rest =>
    if (c = '.' ∨ c = '!' ∨ c = '?') ∧ (rest.head?.elim false isWS) then
      [c] :: sentSplitF fuel (rest.dropWhile isWS)
    else
      match sentSplitF fuel rest with
      | [] => [[c]]
      | s :: ss => (c :: s) :: ss

/-- `re.split(r'(?<=[.!?])\s+', text)`: cut after `.`/`!`/`?` when followed by
whitespace, the (maximal) whitespace run being the discarded separator. -/
def sentSplit (l : List Char) : List (List Char) := sentSplitF l.length l

/-- `" ".join(chunk)`. -/
def joinSpace (ls : List (List Char)) : List Char := joinSep ' ' ls

/-- The chunking loop `for i in range(parts): chunk = xs[idx : idx+size];
idx += size`, returning the chunks and the leftover `xs[idx:]`. -/
def chunkList (size : Nat) : List α → Nat → List (List α) × List α
  | xs, 0 => ([], xs)
  | xs, k + 1 =>
    let r := chunkList size (xs.drop size) k
    (xs.take size :: r.1, r.2)

/-- The balanced chunking loop `for i in range(parts): take = base +
(1 if i < rem else 0); chunk = xs[ptr : ptr+take]; ptr += take`, with the
`i < rem` comparison carried as a count of extras still to hand out. -/
def balancedChunks (base : Nat) : List α → Nat → Nat → List (List α)
  | _, 0, _ => []
  | xs, k + 1, rem =>
    let t := base + (if 0 < rem then 1 else 0)
    xs.take t :: balancedChunks base (xs.drop t) k (rem - 1)

/-- The paragraph list of `split_section_into_parts`:
`[p.strip() for p in content.split("\n") if p.strip()]`. -/
def paragraphsOf (content : List Char) : List (List Char) :=
  ((splitNL content).map pyStrip).filter (fun p => !p.isEmpty)

/-- `" (cont.)"`, the heading suffix of continuation parts. -/
def contSuffix : List Char := " (cont.)".data

/-- The heading of output part `i`: unchanged for part 0, suffixed after. -/
def partHeading (heading : List Char) (i : Nat) : List Char :=
  if i = 0 then heading else heading ++ contSuffix

/-- `split_section_into_parts(section, parts)` from
`backend/services/docx_generator.py`. -/
def splitSectionIntoParts (s : Sec) (parts : Nat) : List Sec :=
  let heading := s.heading
  let content := cleanSectionContent [] heading s.content
  let paragraphs := paragraphsOf content
  if paragraphs.isEmpty then
    (List.range parts).map (fun _ => { heading := heading, content := [] })
  else if paragraphs.length < parts then
    let text := joinNL paragraphs
    let sentences := sentSplit text
    let sentences := if sentences.isEmpty then [text] else sentences
    let chunkSize := max 1 (sentences.length / parts)
    let r := chunkList chunkSize sentences parts
    let out := r.1.enum.map (fun p =>
      { heading := partHeading heading p.1, content := pyStrip (joinSpace p.2) : Sec })
    let leftover := r.2
    if leftover.isEmpty then out
    else
      out.dropLast ++ (out.getLast?.elim [] (fun last =>
        [{ last with content := pyStrip (last.content ++ ' ' :: joinSpace leftover) }]))
  else
    let base := paragraphs.length / parts
    let rem := paragraphs.length % parts
    (balancedChunks base paragraphs parts rem).enum.map (fun p =>
      { heading := partHeading heading p.1, content := pyStrip (joinNL p.2) : Sec })

/-! ## The Page Distributor (`distribute_sections_across_pages`) -/

/-- Total word count of one page (`sum(word_count(sec) for sec in page)`). -/
def pageWc (pg : List Sec) : Nat := (pg.map (fun s => wordCount s.content)).sum

/-- The longest-page search: first index whose non-empty page has total word
count strictly greater than every earlier one (starting from `longest_wc = 0`,
so a page with no words is never selected). -/
def findLongestIdx (pl : List (List Sec)) : Option Nat :=
  (pl.enum.foldl
    (fun acc p =>
      if p.2.isEmpty then acc
      else if pageWc p.2 > acc.2 then (some p.1, pageWc p.2) else acc)
    ((none : Option Nat), 0)).1

/-- The first empty page slot, if any. -/
def findFirstEmpty (pl : List (List Sec)) : Option Nat :=
  (pl.enum.find? (fun p => p.2.isEmpty)).map Prod.fst

/-- The `while empty_slots > 0` loop of `distribute_sections_across_pages`
(Case B): split the first section of the page with the greatest word count
into 2 parts, keep part 0 there (popped from the front, appended at the back)
and put part 1 onto the first empty page. The loop counter `empty_slots` is
the recursion fuel, as each pass decrements it. -/
def caseBLoop : Nat → List (List Sec) → List (List Sec)
  | 0, pl => pl
  | k + 1, pl =>
    match findLongestIdx pl with
    | none => pl
    | some i =>
      match (pl.getD i []) with
      | [] => pl
      | sec :: restOfPage =>
        let parts := splitSectionIntoParts sec 2
        let pl' := pl.set i (restOfPage ++ [parts.getD 0 ⟨[], []⟩])
        match findFirstEmpty pl' with
        | none => pl'
        | some j => caseBLoop k (pl'.set j [parts.getD 1 ⟨[], []⟩])

/-- Stable insertion of a section into a list sorted by descending word
count: it goes before the first strictly smaller entry, after ties. -/
def insertByWcDesc (x : Sec) : List Sec → List Sec
  | [] => [x]
  | y :: ys =>
    if wordCount y.content ≤ wordCount x.content then x :: y :: ys
    else y :: insertByWcDesc x ys

/-- `sorted(sections, key=word_count, reverse=True)`: stable sort by
descending word count (insertion sort, which is stable like Python's sort). -/
def sortByWcDesc (sections : List Sec) : List Sec :=
  sections.foldr insertByWcDesc []

/-- Case B of `distribute_sections_across_pages` (`total_sections <
num_pages`): sort the sections by descending word count (stable, as Python's
`sorted(..., reverse=True)`), seed one per page, then run the splitting loop
on `empty_slots = num_pages - filled_pages`. -/
def caseBFill (sections : List Sec) (numPages : Nat) : List (List Sec) :=
  let sectionsSorted := sortByWcDesc sections
  let pagesList := (List.range numPages).map (fun i =>
    match sectionsSorted.get? i with
    | some s => [s]
    | none => ([] : List Sec))
  let filledPages := pagesList.countP (fun pg => !pg.isEmpty)
  caseBLoop (numPages - filledPages) pagesList

/-- `distribute_sections_across_pages(sections, num_pages)` from
`backend/services/docx_generator.py`, the page mapping modelled as the
association list of its `{1, ..., num_pages}` keys in insertion order. -/
def distributeSectionsAcrossPages (sections : List Sec) (numPages0 : Int) :
    List (Nat × List Sec) :=
  let numPages : Nat := (if numPages0 ≤ 0 then 1 else numPages0).toNat
  if sections.length = 0 then
    (List.range' 1 numPages).map (fun p => (p, ([] : List Sec)))
  else if numPages ≤ sections.length then
    let base := sections.length / numPages
    let rem := sections.length % numPages
    let chunks := balancedChunks base sections numPages rem
    (List.range' 1 numPages).map (fun p => (p, chunks.getD (p - 1) []))
  else
    let pagesList := caseBFill sections numPages
    (List.range' 1 numPages).map (fun p => (p, pagesList.getD (p - 1) []))

/-! ## The Slide Content Normalizer (`generate_content_with_gemini`)

The parsed generator output is a JSON array; its items are modelled as
dictionaries restricted to the nine keys the code reads, with arbitrary
JSON values, plus a non-dict case (which the loop skips). -/

/-- A parsed JSON value. -/
inductive JVal where
  | s (st : List Char)
  | arr (xs : List JVal)
  | num (n : Int)
  | tf (b : Bool)
  | null

/-- Python truthiness of a JSON value. -/
def JVal.truthy : JVal → Bool
  | .s st => !st.isEmpty
  | .arr xs => !xs.isEmpty
  | .num n => n != 0
  | .tf b => b
  | .null => false

/-- `isinstance(v, str)`. -/
def JVal.isStr : JVal → Bool
  | .s _ => true
  | _ => false

mutual

/-- Python `repr` of a JSON value (ASCII fragment, used inside list display). -/
def JVal.pyRepr : JVal → List Char
  | .s st => '\x27' :: st ++ ['\x27']
  | .num n => if n < 0 then '-' :: Nat.toDigits 10 (-n).toNat else Nat.toDigits 10 n.toNat
  | .tf true => "True".data
  | .tf false => "False".data
  | .null => "None".data
  | .arr xs => '[' :: JVal.pyReprList xs ++ [']']

/-- `", ".join(repr(x) for x in xs)`. -/
def JVal.pyReprList : List JVal → List Char
  | [] => []
  | [x] => x.pyRepr
  | x :: y :: rest => x.pyRepr ++ ", ".data ++ JVal.pyReprList (y :: rest)

end

/-- Python `str()` of a JSON value: the string itself for strings, `repr`
for the other JSON shapes. -/
def JVal.pyStr : JVal → List Char
  | .s st => st
  | v => v.pyRepr

/-- One generator-output dictionary, restricted to the keys
`generate_content_with_gemini` reads (`none` = key absent). -/
structure RawDict where
  layout : Option JVal := none
  title : Option JVal := none
  bullets : Option JVal := none
  left : Option JVal := none
  right : Option JVal := none
  caption : Option JVal := none
  content : Option JVal := none
  image : Option JVal := none
  notes : Option JVal := none

/-- One item of the parsed generator array. -/
inductive RawItem where
  | dict (d : RawDict)
  | nondict

/-- One normalized slide dictionary (`none` = key absent). -/
structure NSlide where
  layout : List Char
  title : JVal
  bullets : Option JVal := none
  left : Option JVal := none
  right : Option JVal := none
  caption : Option JVal := none
  image_url : Option (List Char) := none

/-- The per-item mapping of the normalization loop: `none` means the item is
skipped (`continue`), mirroring the non-dict check, the recognized-layout
branches, and the untyped fallback branches. -/
def mapRawItem : RawItem → Option NSlide
  | .nondict => none
  | .dict d =>
    match d.layout with
    | some lv =>
      match lv with
      | .s st =>
        if st = "title".data then
          some { layout := "title".data, title := d.title.getD (.s []) }
        else if st = "bullet".data then
          some { layout := "bullet".data, title := d.title.getD (.s []),
                 bullets := some (
                   let b := d.bullets.getD .null
                   if b.truthy then b else .arr []) }
        else if st = "two_column".data then
          some { layout := "two_column".data, title := d.title.getD (.s []),
                 left := some (d.left.getD (.s [])),
                 right := some (d.right.getD (.s [])) }
        else if st = "image".data then
          some { layout := "image".data, title := d.title.getD (.s []),
                 caption := some (d.caption.getD (d.title.getD (.s []))) }
        else none
      | _ => none
    | none =>
      let title := d.title.getD (.s [])
      let content := d.content.getD .null
      let image := d.image.getD .null
      let notes := d.notes.getD .null
      match content with
      | .arr xs =>
        some { layout := "bullet".data, title := title,
               bullets := some (.arr
                 (((xs.map (fun b => pyStrip b.pyStr)).filter
                     (fun t => !t.isEmpty)).map .s)) }
      | _ =>
        if image.truthy then
          some { layout := "image".data, title := title,
                 caption := some (if notes.truthy then notes else .s image.pyStr) }
        else
          some { layout := "title".data, title := title }

/-- The deterministic image seed:
`re.sub(r"[^a-zA-Z0-9]", "", f"{topic}_{idx}") or f"slide_{idx}"`. -/
def picsumSeed (topic : List Char) (idx : Nat) : List Char :=
  let base := (topic ++ '_' :: Nat.toDigits 10 idx).filter (fun c => c.isAlphanum)
  if base.isEmpty then "slide_".data ++ Nat.toDigits 10 idx else base

/-- `f"https://picsum.photos/seed/{seed}/1200/800"`. -/
def picsumUrl (topic : List Char) (idx : Nat) : List Char :=
  "https://picsum.photos/seed/".data ++ picsumSeed topic idx ++ "/1200/800".data

/-- `(s.get("title", "") or "")[:120]`: slicing works on strings and lists,
and raises `TypeError` on any other truthy value. -/
def captionFromTitle (sl : NSlide) : Except Unit JVal :=
  let tv := if sl.title.truthy then sl.title else .s []
  match tv with
  | .s st => .ok (.s (st.take 120))
  | .arr xs => .ok (.arr (xs.take 120))
  | _ => .error ()

/-- The image post-pass body for one slide at position `idx`: refill a
missing / falsy / non-string caption from the title, then always (re)assign
`image_url` from the deterministic seed. -/
def processImageSlide (topic : List Char) (idx : Nat) (sl : NSlide) :
    Except Unit NSlide :=
  if sl.layout = "image".data then
    let cv := sl.caption.getD .null
    if !cv.truthy || !cv.isStr then
      match captionFromTitle sl with
      | .error e => .error e
      | .ok c => .ok { sl with caption := some c, image_url := some (picsumUrl topic idx) }
    else .ok { sl with image_url := some (picsumUrl topic idx) }
  else .ok sl

/-- `for idx, s in enumerate(normalized_slides): ...` (image post-pass). -/
def postImagePass (topic : List Char) : Nat → List NSlide → Except Unit (List NSlide)
  | _, [] => .ok []
  | idx, sl :: rest =>
    match processImageSlide topic idx sl with
    | .error e => .error e
    | .ok sl' =>
      match postImagePass topic (idx + 1) rest with
      | .error e => .error e
      | .ok rest' => .ok (sl' :: rest')

/-- A padding slide: `{"layout": "title", "title": f"Slide {i+1}"}`. -/
def padSlide (i : Nat) : NSlide :=
  { layout := "title".data, title := .s ("Slide ".data ++ Nat.toDigits 10 (i + 1)) }

/-- The slide-content normalization of `generate_content_with_gemini`
(`backend/services/content_generator.py`): map each parsed item, pad with
`"Slide k"` title slides up to `num_slides`, truncate beyond it, then run the
image post-pass.  An `error` result models the `TypeError` the post-pass can
raise (wrapped by the function into a `RuntimeError`). -/
def normalizeSlides (data : List RawItem) (numSlides : Nat) (topic : List Char) :
    Except Unit (List NSlide) :=
  let ns := data.filterMap mapRawItem
  let ns :=
    if ns.length < numSlides then
      ns ++ (List.range' ns.length (numSlides - ns.length)).map padSlide
    else if numSlides < ns.length then ns.take numSlides
    else ns
  postImagePass topic 0 ns

/-! ## Configuration validation and template choice
(`backend/models/schemas.py`, `backend/services/pptx_generator.py`) -/

/-- `ConfigurationUpdate`: all styling fields optional. -/
structure ConfigurationUpdate where
  theme_id : Option (List Char) := none
  font_name : Option (List Char) := none
  font_color : Option (List Char) := none
  background_color : Option (List Char) := none
  accent_color : Option (List Char) := none
deriving DecidableEq

/-- `ALLOWED_FONTS`. -/
def ALLOWED_FONTS : List (List Char) :=
  ["Arial".data, "Calibri".data, "Times New Roman".data, "Segoe UI".data,
   "Poppins".data]

/-- `HEX_COLOR_REGEX = ^#(?:[0-9a-fA-F]{3}){1,2}$`. -/
def isHexColor (s : List Char) : Bool :=
  match s with
  | '#' :: rest =>
    (rest.length = 3 || rest.length = 6)
      && rest.all (fun c =>
        c.isDigit || (97 ≤ c.toNat && c.toNat ≤ 102) || (65 ≤ c.toNat && c.toNat ≤ 70))
  | _ => false

/-- The four pydantic `field_validator`s of `ConfigurationUpdate`: fonts
against the allow-list, the three colors against the hex pattern; `theme_id`
has no validator.  Empty and absent values are skipped (`if v and ...`). -/
def validateConfigurationUpdate (c : ConfigurationUpdate) :
    Except (List Char) ConfigurationUpdate :=
  if (c.font_name.getD []) ≠ [] && !(ALLOWED_FONTS.contains (c.font_name.getD [])) then
    .error "font not supported".data
  else if (c.font_color.getD []) ≠ [] && !isHexColor (c.font_color.getD []) then
    .error "font color not a valid hex color".data
  else if (c.background_color.getD []) ≠ [] && !isHexColor (c.background_color.getD []) then
    .error "background color not a valid hex color".data
  else if (c.accent_color.getD []) ≠ [] && !isHexColor (c.accent_color.getD []) then
    .error "accent color not a valid hex color".data
  else .ok c

/-- `TEMPLATE_MAP`: theme IDs to template file paths. -/
def TEMPLATE_MAP : List (List Char × List Char) :=
  [("ppt1".data, "ppt_templates/ppt1.pptx".data),
   ("ppt2".data, "ppt_templates/ppt2.pptx".data),
   ("ppt3".data, "ppt_templates/ppt3.pptx".data),
   ("ppt4".data, "ppt_templates/ppt4.pptx".data),
   ("ppt5".data, "ppt_templates/ppt5.pptx".data),
   ("ppt6".data, "ppt_templates/ppt6.pptx".data),
   ("ppt7".data, "ppt_templates/ppt7.pptx".data),
   ("ppt8".data, "ppt_templates/ppt8.pptx".data),
   ("ppt9".data, "ppt_templates/ppt9.pptx".data)]

/-- `TEMPLATE_MAP.get(theme_id)`. -/
def lookupTemplate (tid : List Char) : List (List Char × List Char) → Option (List Char)
  | [] => none
  | e :: rest => if tid = e.1 then some e.2 else lookupTemplate tid rest

/-- How `build_pptx` starts: from a template file or from a blank
presentation. -/
inductive PresentationSource where
  | fromTemplate (path : List Char)
  | blank
deriving DecidableEq

/-- Step 1 of `build_pptx` (`backend/services/pptx_generator.py`):
`theme_id = (config or {}).get("theme_id") or "ppt1"`, then use the mapped
template when it exists on disk, else a blank presentation.  Disk state is
abstracted into the `fileOnDisk` predicate. -/
def choosePresentationSource (config : Option ConfigurationUpdate)
    (fileOnDisk : List Char → Bool) : PresentationSource :=
  let tid :=
    match config with
    | none => "ppt1".data
    | some c =>
      match c.theme_id with
      | none => "ppt1".data
      | some t => if t.isEmpty then "ppt1".data else t
  match lookupTemplate tid TEMPLATE_MAP with
  | some path => if !path.isEmpty && fileOnDisk path then .fromTemplate path else .blank
  | none => .blank

/-- Claim C9's own wording of the drop condition, for comparison with the
code: a leading line is dropped exactly when it equals the document title,
exactly equals the heading, equals the heading followed by a colon, or
matches the pattern "Page `<n>`" combined with "Section" (case-insensitive).
Modelled from the claim, not from the source. -/
def claimNineDropCond (docTitle heading f : List Char) : Bool :=
  let dtLow := lowerStr (pyStrip docTitle)
  let hdLow := lowerStr (pyStrip heading)
  f == dtLow || f == hdLow || f == hdLow ++ [':']
    || ("page ".data.isPrefixOf f && (f.drop 5).head?.elim false Char.isDigit
          && hasSub "section".data f)

/-! # Theorems -/

/-! ## Helper lemmas: balanced chunking -/

theorem balancedChunks_length {α : Type _} (base k : Nat) :
    ∀ (xs : List α) (rem : Nat), (balancedChunks base xs k rem).length = k := by
  induction k with
  | zero => intro xs rem; rfl
  | succ k ih => intro xs rem; simp [balancedChunks, ih]

theorem balancedChunks_flatten {α : Type _} (base k : Nat) :
    ∀ (xs : List α) (rem : Nat),
      (balancedChunks base xs k rem).flatten = xs.take (k * base + min k rem) := by
  induction k with
  | zero => intro xs rem; simp [balancedChunks]
  | succ k ih =>
    intro xs rem
    simp only [balancedChunks, List.flatten_cons, ih]
    have harith : (k + 1) * base + min (k + 1) rem =
        (base + if 0 < rem then 1 else 0) + (k * base + min k (rem - 1)) := by
      rw [Nat.succ_mul]
      by_cases h : 0 < rem <;> simp [h] <;> omega
    conv_rhs => rw [harith, List.take_add]

theorem balancedChunks_lengths {α : Type _} (base k : Nat) :
    ∀ (xs : List α) (rem : Nat), k * base + min k rem ≤ xs.length →
      (balancedChunks base xs k rem).map List.length =
        (List.range' 1 k).map (fun p => base + if p ≤ rem then 1 else 0) := by
  induction k with
  | zero => intro xs rem _; rfl
  | succ k ih =>
    intro xs rem hle
    rw [Nat.succ_mul] at hle
    have ht : (base + if 0 < rem then 1 else 0) ≤ xs.length := by
      by_cases h : 0 < rem <;> simp [h] at hle ⊢ <;> omega
    have hrec : k * base + min k (rem - 1) ≤
        (xs.drop (base + if 0 < rem then 1 else 0)).length := by
      rw [List.length_drop]
      by_cases h : 0 < rem <;> simp [h] at hle ⊢ <;> omega
    simp only [balancedChunks, List.map_cons, ih _ _ hrec]
    rw [List.range'_succ, List.map_cons]
    have hshift : List.range' (1 + 1) k = (List.range' 1 k).map (fun x => 1 + x) :=
      (List.map_add_range' 1 1 k 1).symm
    rw [List.cons.injEq]
    constructor
    · rw [List.length_take, min_eq_left ht]
      rfl
    · rw [hshift, List.map_map]
      refine List.map_congr_left (fun p hp => ?_)
      have hp1 : 1 ≤ p := by
        rcases List.mem_range'.1 hp with ⟨i, _, rfl⟩
        omega
      simp only [Function.comp]
      by_cases h : 1 + p ≤ rem <;> by_cases h' : p ≤ rem - 1 <;> simp [h, h'] <;> omega

theorem pages_map_snd {α : Type _} (l : List α) (d : α) (n : Nat) (hn : l.length = n) :
    ((List.range' 1 n).map (fun p => (p, l.getD (p - 1) d))).map Prod.snd = l := by
  subst hn
  refine List.ext_getElem (by simp) (fun i h1 h2 => ?_)
  have h2' : i < l.length := by simpa using h2
  simp only [List.getElem_map, List.getElem_range']
  have hi : 1 + 1 * i - 1 = i := by omega
  rw [hi, List.getD_eq_getElem l d h2']

theorem pages_map_snd_length {α : Type _} (l : List (List α)) (d : List α) (n : Nat)
    (hn : l.length = n) :
    ((List.range' 1 n).map (fun p => (p, l.getD (p - 1) d))).map (fun e => e.2.length) =
      l.map List.length := by
  subst hn
  refine List.ext_getElem (by simp) (fun i h1 h2 => ?_)
  have h2' : i < l.length := by simpa using h2
  simp only [List.getElem_map, List.getElem_range']
  have hi : 1 + 1 * i - 1 = i := by omega
  rw [hi, List.getD_eq_getElem l d h2']

/-! ## C1: key set of the page mapping -/

/-- C1: for every list of sections and every integer `num_pages`,
`distribute_sections_across_pages` returns a mapping whose key sequence is
exactly `1, ..., max(num_pages, 1)` (non-positive `num_pages` is clamped
to 1), each key carrying an ordered list of sections. -/
theorem distribute_key_set (sections : List Sec) (numPages0 : Int) :
    (distributeSectionsAcrossPages sections numPages0).map Prod.fst =
      List.range' 1 (max numPages0 1).toNat := by
  have h : (if numPages0 ≤ 0 then 1 else numPages0) = max numPages0 1 := by
    split <;> omega
  simp only [distributeSectionsAcrossPages, h]
  split
  · simp [List.map_map, Function.comp_def]
  · split <;> simp [List.map_map, Function.comp_def]

/-! ## C2: Case A conservation and page sizes -/

/-- C2: when `num_pages ≥ 1` and `len(sections) ≥ num_pages`, the
concatenation of the pages in page order is the input sequence unchanged and
unsplit, and with `base = len / num_pages`, `rem = len % num_pages` the
`p`-th page receives `base + 1` sections when `p ≤ rem` and `base`
otherwise (consecutively). -/
theorem distribute_caseA_conservation (sections : List Sec) (numPages0 : Int)
    (h1 : 1 ≤ numPages0) (h2 : numPages0.toNat ≤ sections.length) :
    ((distributeSectionsAcrossPages sections numPages0).map Prod.snd).flatten = sections ∧
    (distributeSectionsAcrossPages sections numPages0).map (fun e => e.2.length) =
      (List.range' 1 numPages0.toNat).map (fun p =>
        sections.length / numPages0.toNat +
          if p ≤ sections.length % numPages0.toNat then 1 else 0) := by
  have hn0 : ¬ numPages0 ≤ 0 := by omega
  have hlen0 : ¬ sections.length = 0 := by omega
  have hnpos : 0 < numPages0.toNat := by omega
  simp only [distributeSectionsAcrossPages, if_neg hn0, if_neg hlen0, if_pos h2]
  have hcl : (balancedChunks (sections.length / numPages0.toNat) sections
      numPages0.toNat (sections.length % numPages0.toNat)).length = numPages0.toNat :=
    balancedChunks_length _ _ _ _
  have hsum : numPages0.toNat * (sections.length / numPages0.toNat) +
      min numPages0.toNat (sections.length % numPages0.toNat) = sections.length := by
    have hmod : sections.length % numPages0.toNat < numPages0.toNat :=
      Nat.mod_lt _ hnpos
    have hdm := Nat.div_add_mod sections.length numPages0.toNat
    omega
  constructor
  · rw [pages_map_snd _ [] _ hcl, balancedChunks_flatten, hsum, List.take_length]
  · rw [pages_map_snd_length _ [] _ hcl,
      balancedChunks_lengths _ _ _ _ (le_of_eq hsum)]

/-- Witness for C2 at the five-section, two-page scenario: pages `[A,B,C]`
and `[D,E]`. -/
theorem distribute_caseA_conservation_witness :
    ((distributeSectionsAcrossPages
        [⟨"A".data, "a".data⟩, ⟨"B".data, "b".data⟩, ⟨"C".data, "c".data⟩,
         ⟨"D".data, "d".data⟩, ⟨"E".data, "e".data⟩] 2).map Prod.snd).flatten =
      [⟨"A".data, "a".data⟩, ⟨"B".data, "b".data⟩, ⟨"C".data, "c".data⟩,
       ⟨"D".data, "d".data⟩, ⟨"E".data, "e".data⟩] ∧
    (distributeSectionsAcrossPages
        [⟨"A".data, "a".data⟩, ⟨"B".data, "b".data⟩, ⟨"C".data, "c".data⟩,
         ⟨"D".data, "d".data⟩, ⟨"E".data, "e".data⟩] 2).map (fun e => e.2.length) =
      [3, 2] :=
  distribute_caseA_conservation
    [⟨"A".data, "a".data⟩, ⟨"B".data, "b".data⟩, ⟨"C".data, "c".data⟩,
     ⟨"D".data, "d".data⟩, ⟨"E".data, "e".data⟩] 2 (by decide) (by decide)

/-! ## C7: shape of `split_section_into_parts` -/

theorem chunkList_fst_length {α : Type _} (size : Nat) (k : Nat) :
    ∀ (xs : List α), ((chunkList size xs k).1).length = k := by
  induction k with
  | zero => intro xs; rfl
  | succ k ih => intro xs; simp [chunkList, ih]

theorem heading_map_leftover (l : List Sec) (hne : l ≠ []) (g : Sec → List Char) :
    (l.dropLast ++
        [{ heading := (l.getLast hne).heading, content := g (l.getLast hne) : Sec }]).map
      Sec.heading = l.map Sec.heading := by
  rcases List.eq_nil_or_concat l with rfl | ⟨L, b, rfl⟩
  · exact absurd rfl hne
  · simp [List.concat_eq_append, List.dropLast_concat, List.getLast_concat]

theorem enum_mk_map_heading {β : Type _} (hd : List Char) (g : Nat × β → List Char)
    (chunks : List β) :
    ((chunks.enum.map (fun p => { heading := partHeading hd p.1, content := g p : Sec })).map
      Sec.heading) = (List.range chunks.length).map (partHeading hd) := by
  rw [List.map_map]
  rw [show (Sec.heading ∘ fun p => { heading := partHeading hd p.1, content := g p : Sec }) =
    (partHeading hd ∘ Prod.fst) from rfl]
  rw [← List.map_map, List.enum_map_fst]

/-- C7, corrected: `split_section_into_parts(section, parts)` always returns
exactly `parts` sections; when the cleaned content has no paragraph, every
part is the original heading (unsuffixed) with empty content; otherwise part
0 keeps the heading and parts `1..parts-1` get `"<heading> (cont.)"`. -/
theorem split_shape (s : Sec) (parts : Nat) (h : 1 ≤ parts) :
    (splitSectionIntoParts s parts).length = parts ∧
    ((splitSectionIntoParts s parts).map Sec.heading =
      if paragraphsOf (cleanSectionContent [] s.heading s.content) = []
      then List.replicate parts s.heading
      else (List.range parts).map (partHeading s.heading)) ∧
    (paragraphsOf (cleanSectionContent [] s.heading s.content) = [] →
      ∀ part ∈ splitSectionIntoParts s parts, part = ⟨s.heading, []⟩) := by
  by_cases hp : paragraphsOf (cleanSectionContent [] s.heading s.content) = []
  · have hE : splitSectionIntoParts s parts = List.replicate parts ⟨s.heading, []⟩ := by
      simp only [splitSectionIntoParts]
      rw [if_pos (List.isEmpty_iff.mpr hp), List.map_const', List.length_range]
    refine ⟨?_, ?_, ?_⟩
    · rw [hE, List.length_replicate]
    · rw [hE, if_pos hp, List.map_replicate]
    · intro _ part hmem
      rw [hE] at hmem
      exact List.eq_of_mem_replicate hmem
  · have hp' : ¬ ((paragraphsOf (cleanSectionContent [] s.heading s.content)).isEmpty = true) :=
      fun hh => hp (List.isEmpty_iff.mp hh)
    by_cases hlt : (paragraphsOf (cleanSectionContent [] s.heading s.content)).length < parts
    · -- sentence-level fallback branch
      simp only [splitSectionIntoParts, if_neg hp', if_pos hlt]
      rw [if_neg hp]
      set sentences :=
        (let t := joinNL (paragraphsOf (cleanSectionContent [] s.heading s.content))
         let ss := sentSplit t
         if ss.isEmpty then [t] else ss) with hsent
      set out :=
        ((chunkList (max 1 (sentences.length / parts)) sentences parts).1.enum.map
          (fun p => { heading := partHeading s.heading p.1,
                      content := pyStrip (joinSpace p.2) : Sec })) with hout
      have hlen : out.length = parts := by
        rw [hout, List.length_map, List.enum_length, chunkList_fst_length]
      have hne : out ≠ [] := by
        intro hnil
        rw [hnil] at hlen
        simp at hlen
        omega
      have hheads : out.map Sec.heading = (List.range parts).map (partHeading s.heading) := by
        rw [hout, enum_mk_map_heading, chunkList_fst_length]
      split
      · exact ⟨hlen, hheads, fun hc => absurd hc hp⟩
      · rw [List.getLast?_eq_getLast out hne]
        simp only [Option.elim]
        refine ⟨?_, ?_, fun hc => absurd hc hp⟩
        · rw [List.length_append, List.length_dropLast, hlen]
          simp
          omega
        · rw [heading_map_leftover out hne (fun last =>
            pyStrip (last.content ++ ' ' ::
              joinSpace (chunkList (max 1 (sentences.length / parts)) sentences parts).2))]
          exact hheads
    · -- paragraph branch
      simp only [splitSectionIntoParts, if_neg hp', if_neg hlt]
      rw [if_neg hp]
      refine ⟨?_, ?_, fun hc => absurd hc hp⟩
      · rw [List.length_map, List.enum_length, balancedChunks_length]
      · rw [enum_mk_map_heading, balancedChunks_length]

/-- C7 counterexample: on a section with empty content and `parts = 2`, part
1 keeps the bare heading `"H"`, which is not `"H (cont.)"` — the claimed
universal `" (cont.)"` suffix rule fails in the empty branch. -/
theorem split_headings_counterexample :
    (splitSectionIntoParts ⟨"H".data, []⟩ 2).map Sec.heading = ["H".data, "H".data] ∧
    "H".data ≠ "H (cont.)".data := ⟨by decide, by decide⟩

/-- Witness for C7 on a two-paragraph section split in two. -/
theorem split_shape_witness :
    (splitSectionIntoParts ⟨"H".data, "aa bb\ncc".data⟩ 2).length = 2 ∧
    ((splitSectionIntoParts ⟨"H".data, "aa bb\ncc".data⟩ 2).map Sec.heading =
      if paragraphsOf (cleanSectionContent [] "H".data "aa bb\ncc".data) = []
      then List.replicate 2 "H".data
      else (List.range 2).map (partHeading "H".data)) ∧
    (paragraphsOf (cleanSectionContent [] "H".data "aa bb\ncc".data) = [] →
      ∀ part ∈ splitSectionIntoParts ⟨"H".data, "aa bb\ncc".data⟩ 2,
        part = ⟨"H".data, []⟩) :=
  split_shape ⟨"H".data, "aa bb\ncc".data⟩ 2 (by decide)

/-! ## C9: which leading lines the Text Normalizer drops -/

theorem stripMeta_suffix (dtLow hdLow : List Char) :
    ∀ ls : List (List Char), stripMeta dtLow hdLow ls <:+ ls := by
  intro ls
  induction ls with
  | nil => exact List.suffix_refl []
  | cons l rest ih =>
    simp only [stripMeta]
    split
    · exact ih.trans (List.suffix_cons l rest)
    · split
      · split
        · exact ih.trans (List.suffix_cons l rest)
        · exact List.suffix_refl _
      · exact List.suffix_refl _

/-- C9, corrected: the meta-line loop drops a non-blank leading line exactly
when the line (lowered, stripped) equals the document title, starts with
`"page "` and contains `"section"`, starts with `"section "`, equals the
heading, or starts with the heading followed by a colon — and only when
another non-blank line remains below it; and the Scenario-5 normalization
strips both meta lines. -/
theorem meta_line_drop_iff :
    (∀ (dtLow hdLow l : List Char) (rest : List (List Char)),
      ¬ (pyStrip l).isEmpty = true →
      (stripMeta dtLow hdLow (l :: rest) ≠ l :: rest ↔
        (isMetaLine dtLow hdLow (lowerStr (pyStrip l)) = true ∧
          rest.any (fun m => !(pyStrip m).isEmpty) = true))) ∧
    cleanSectionContent "India EV Market".data "Growth".data
        "India EV Market\nGrowth\nReal paragraph text.".data =
      "Real paragraph text.".data := by
  constructor
  · intro dtLow hdLow l rest hne
    have hrw : stripMeta dtLow hdLow (l :: rest) =
        if isMetaLine dtLow hdLow (lowerStr (pyStrip l)) = true ∧
            rest.any (fun m => !(pyStrip m).isEmpty) = true
        then stripMeta dtLow hdLow rest else l :: rest := by
      simp only [stripMeta]
      rw [if_neg hne]
      by_cases hm : isMetaLine dtLow hdLow (lowerStr (pyStrip l)) = true
      · rw [if_pos hm]
        by_cases ha : rest.any (fun m => !(pyStrip m).isEmpty) = true
        · have hr : (!rest.isEmpty && rest.any (fun m => !(pyStrip m).isEmpty)) = true := by
            cases rest with
            | nil => simp at ha
            | cons a t =>
              simp only [List.isEmpty_cons, Bool.not_false, Bool.true_and]
              exact ha
          rw [if_pos hr, if_pos ⟨hm, ha⟩]
        · have hr : ¬ ((!rest.isEmpty && rest.any (fun m => !(pyStrip m).isEmpty)) = true) := by
            simp only [Bool.and_eq_true]
            intro hc
            exact ha hc.2
          rw [if_neg hr, if_neg (fun hc => ha hc.2)]
      · rw [if_neg hm, if_neg (fun hc => hm hc.1)]
    rw [hrw]
    by_cases hcond : isMetaLine dtLow hdLow (lowerStr (pyStrip l)) = true ∧
        rest.any (fun m => !(pyStrip m).isEmpty) = true
    · rw [if_pos hcond]
      refine ⟨fun _ => hcond, fun _ => ?_⟩
      intro heq
      have hlen := (stripMeta_suffix dtLow hdLow rest).length_le
      rw [heq] at hlen
      simp at hlen
    · rw [if_neg hcond]
      exact ⟨fun hneq => absurd rfl hneq, fun hc => absurd hc hcond⟩
  · decide

/-- C9 counterexample: the line `"Section 2"` matches none of the claim's
four drop conditions (title, heading, heading-colon, `"Page <n>"` with
`"Section"`), yet the normalizer drops it, because the code also drops any
line starting with `"section "`. -/
theorem clean_drop_counterexample :
    claimNineDropCond "T".data "H".data (lowerStr (pyStrip "Section 2".data)) = false ∧
    cleanSectionContent "T".data "H".data "Section 2\nBody.".data = "Body.".data :=
  ⟨by decide, by decide⟩

/-- Witness for C9 on a concrete meta line with content below it. -/
theorem meta_line_drop_iff_witness :
    ¬ (pyStrip "Growth".data).isEmpty = true ∧
    (stripMeta "india ev market".data "growth".data
        ["Growth".data, "Real paragraph text.".data] ≠
          ["Growth".data, "Real paragraph text.".data] ↔
      (isMetaLine "india ev market".data "growth".data
          (lowerStr (pyStrip "Growth".data)) = true ∧
        ["Real paragraph text.".data].any (fun m => !(pyStrip m).isEmpty) = true)) :=
  ⟨by decide, meta_line_drop_iff.1 "india ev market".data "growth".data
    "Growth".data ["Real paragraph text.".data] (by decide)⟩

/-! ## C4: exact slide count -/

theorem postImagePass_length (topic : List Char) :
    ∀ (l : List NSlide) (idx : Nat) (out : List NSlide),
      postImagePass topic idx l = .ok out → out.length = l.length := by
  intro l
  induction l with
  | nil =>
    intro idx out h
    simp only [postImagePass, Except.ok.injEq] at h
    subst h
    rfl
  | cons sl rest ih =>
    intro idx out h
    simp only [postImagePass] at h
    cases hps : processImageSlide topic idx sl with
    | error e => rw [hps] at h; simp at h
    | ok sl' =>
      rw [hps] at h
      cases hrest : postImagePass topic (idx + 1) rest with
      | error e => rw [hrest] at h; simp at h
      | ok rest' =>
        rw [hrest] at h
        simp only [Except.ok.injEq] at h
        subst h
        simp [ih (idx + 1) rest' hrest]

/-- C4, corrected: whenever the slide-content normalization completes
without the post-pass type error, it returns exactly `num_slides` slides
(padding with sequential `"Slide k"` title slides, truncating extras). -/
theorem normalize_exact_count (data : List RawItem) (numSlides : Nat) (topic : List Char)
    (out : List NSlide) (_h1 : 1 ≤ numSlides)
    (h2 : normalizeSlides data numSlides topic = .ok out) :
    out.length = numSlides := by
  simp only [normalizeSlides] at h2
  have hlen := postImagePass_length topic _ 0 out h2
  rw [hlen]
  by_cases hlt : (data.filterMap mapRawItem).length < numSlides
  · rw [if_pos hlt, List.length_append, List.length_map, List.length_range']
    omega
  · rw [if_neg hlt]
    by_cases hgt : numSlides < (data.filterMap mapRawItem).length
    · rw [if_pos hgt, List.length_take]
      omega
    · rw [if_neg hgt]
      omega

/-- C4 counterexample: an image slide whose caption must be refilled from a
numeric title makes the post-pass raise (Python `TypeError` on `5[:120]`), so
the function errors instead of returning one slide. -/
theorem normalize_count_counterexample :
    normalizeSlides [.dict { layout := some (.s "image".data), title := some (.num 5) }]
      1 "AI".data = .error () := rfl

/-- Witness for C4 at Scenario 4: `normalize([], 5, "AI")` yields exactly the
five title slides `"Slide 1" .. "Slide 5"`. -/
theorem normalize_exact_count_witness :
    normalizeSlides [] 5 "AI".data =
      .ok [padSlide 0, padSlide 1, padSlide 2, padSlide 3, padSlide 4] ∧
    (padSlide 0).title = JVal.s "Slide 1".data ∧
    (padSlide 4).title = JVal.s "Slide 5".data ∧
    ([padSlide 0, padSlide 1, padSlide 2, padSlide 3, padSlide 4] : List NSlide).length = 5 :=
  ⟨rfl, rfl, rfl, normalize_exact_count [] 5 "AI".data _ (by decide) rfl⟩

/-! ## C6: image slides after the post-pass -/

theorem postImagePass_image_fields (topic : List Char) :
    ∀ (l : List NSlide) (k : Nat) (out : List NSlide),
      postImagePass topic k l = .ok out →
      ∀ (i : Nat) (hi : i < out.length), (out.get ⟨i, hi⟩).layout = "image".data →
        (out.get ⟨i, hi⟩).image_url = some (picsumUrl topic (k + i)) ∧
        (out.get ⟨i, hi⟩).caption.isSome = true := by
  intro l
  induction l with
  | nil =>
    intro k out h
    simp only [postImagePass, Except.ok.injEq] at h
    subst h
    intro i hi
    exact absurd hi (by simp)
  | cons sl rest ih =>
    intro k out h
    simp only [postImagePass] at h
    cases hps : processImageSlide topic k sl with
    | error e => rw [hps] at h; simp at h
    | ok sl' =>
      rw [hps] at h
      cases hrest : postImagePass topic (k + 1) rest with
      | error e => rw [hrest] at h; simp at h
      | ok rest' =>
        rw [hrest] at h
        simp only [Except.ok.injEq] at h
        subst h
        intro i hi hlay
        cases i with
        | zero =>
          simp only [List.get] at hlay ⊢
          simp only [processImageSlide] at hps
          by_cases hsl : sl.layout = "image".data
          · rw [if_pos hsl] at hps
            by_cases hcv : (!(sl.caption.getD .null).truthy || !(sl.caption.getD .null).isStr) = true
            · rw [if_pos hcv] at hps
              cases hcf : captionFromTitle sl with
              | error e => rw [hcf] at hps; simp at hps
              | ok c =>
                rw [hcf] at hps
                simp only [Except.ok.injEq] at hps
                subst hps
                exact ⟨by simp, by simp⟩
            · rw [if_neg hcv] at hps
              simp only [Except.ok.injEq] at hps
              subst hps
              refine ⟨by simp, ?_⟩
              simp only [Bool.not_eq_true, Bool.or_eq_false_iff, Bool.not_eq_false] at hcv
              cases hc : sl.caption with
              | none => rw [hc] at hcv; simp [JVal.truthy] at hcv
              | some c => simp
          · rw [if_neg hsl] at hps
            simp only [Except.ok.injEq] at hps
            subst hps
            exact absurd hlay hsl
        | succ j =>
          have hj : j < rest'.length := by simpa using hi
          have := ih (k + 1) rest' hrest j hj
          simp only [List.get] at hlay ⊢
          have harith : k + 1 + j = k + (j + 1) := by omega
          rw [← harith]
          exact this (by simpa using hlay)

/-- C6, corrected: after normalization every image-layout slide carries a
caption key (possibly the empty string, filled from the title truncated to
120 characters when missing, falsy or non-string) and an `image_url` that is
always `https://picsum.photos/seed/<seed>/1200/800` with the seed derived
from the topic and the slide position by stripping non-alphanumeric
characters — never taken from generator output. -/
theorem image_slide_fields (data : List RawItem) (numSlides : Nat) (topic : List Char)
    (out : List NSlide) (h : normalizeSlides data numSlides topic = .ok out) :
    ∀ (i : Nat) (hi : i < out.length), (out.get ⟨i, hi⟩).layout = "image".data →
      (out.get ⟨i, hi⟩).image_url = some (picsumUrl topic i) ∧
      (out.get ⟨i, hi⟩).caption.isSome = true := by
  simp only [normalizeSlides] at h
  intro i hi hlay
  have := postImagePass_image_fields topic _ 0 out h i hi hlay
  simpa using this

/-- C6 counterexample: an image item with no caption and no title comes out
with `caption = ""` — the empty string, not a non-empty caption. -/
theorem image_caption_counterexample :
    normalizeSlides [.dict { layout := some (.s "image".data) }] 1 "AI".data = .ok
      [{ layout := "image".data, title := .s [], caption := some (.s []),
         image_url := some "https://picsum.photos/seed/AI0/1200/800".data }] ∧
    (JVal.s []).truthy = false := ⟨rfl, rfl⟩

/-- Witness for C6 on a one-item deck whose image slide keeps its string
caption and gets the deterministic URL. -/
theorem image_slide_fields_witness :
    (({ layout := "image".data, title := JVal.s [], caption := some (JVal.s "cap".data),
        image_url := some (picsumUrl "AI".data 0) } : NSlide)).image_url =
      some (picsumUrl "AI".data 0) ∧
    (({ layout := "image".data, title := JVal.s [], caption := some (JVal.s "cap".data),
        image_url := some (picsumUrl "AI".data 0) } : NSlide)).caption.isSome = true :=
  image_slide_fields
    [.dict { layout := some (.s "image".data), caption := some (.s "cap".data) }]
    1 "AI".data
    [{ layout := "image".data, title := JVal.s [], caption := some (JVal.s "cap".data),
       image_url := some (picsumUrl "AI".data 0) }]
    rfl 0 (by decide) rfl

/-! ## C10: theme_id is never validated; template fallback -/

/-- C10, corrected: `theme_id` passes configuration validation whatever its
value; a missing, null or empty `theme_id` falls back to the `ppt1` template
(blank when its file is absent); an unrecognized non-empty `theme_id` yields
a blank default presentation — never a validation error. -/
theorem theme_fallback (fileOnDisk : List Char → Bool) (t : List Char)
    (htne : t ≠ []) (hnotin : t ∉ TEMPLATE_MAP.map Prod.fst) :
    validateConfigurationUpdate ⟨some t, none, none, none, none⟩ =
      .ok ⟨some t, none, none, none, none⟩ ∧
    choosePresentationSource (some ⟨some t, none, none, none, none⟩) fileOnDisk = .blank ∧
    (∀ c : ConfigurationUpdate, c.theme_id = none →
      choosePresentationSource (some c) fileOnDisk =
        choosePresentationSource none fileOnDisk) ∧
    (∀ c : ConfigurationUpdate, c.theme_id = some [] →
      choosePresentationSource (some c) fileOnDisk =
        choosePresentationSource none fileOnDisk) ∧
    choosePresentationSource none fileOnDisk =
      (if fileOnDisk "ppt_templates/ppt1.pptx".data = true
       then .fromTemplate "ppt_templates/ppt1.pptx".data else .blank) := by
  have hte : t.isEmpty = false := by
    cases t with
    | nil => exact absurd rfl htne
    | cons a l => rfl
  simp only [TEMPLATE_MAP, List.map_cons, List.map_nil, List.mem_cons,
    List.not_mem_nil, or_false, not_or] at hnotin
  obtain ⟨n1, n2, n3, n4, n5, n6, n7, n8, n9⟩ := hnotin
  refine ⟨rfl, ?_, ?_, ?_, ?_⟩
  · simp [choosePresentationSource, hte, lookupTemplate, TEMPLATE_MAP,
      n1, n2, n3, n4, n5, n6, n7, n8, n9]
  · intro c hc
    simp [choosePresentationSource, hc]
  · intro c hc
    simp [choosePresentationSource, hc]
  · simp [choosePresentationSource, lookupTemplate, TEMPLATE_MAP]

/-- C10 counterexample: with every template file present, an unrecognized
`theme_id` still produces a blank presentation, not the `ppt1` template the
claim describes. -/
theorem theme_fallback_counterexample :
    choosePresentationSource (some { theme_id := some "custom".data }) (fun _ => true) =
      .blank ∧
    (PresentationSource.blank ≠ .fromTemplate "ppt_templates/ppt1.pptx".data) :=
  ⟨rfl, by decide⟩

/-- Witness for C10 with an unknown theme `"nope"`, a missing theme, an empty
theme, and all template files on disk. -/
theorem theme_fallback_witness :
    validateConfigurationUpdate ⟨some "nope".data, none, none, none, none⟩ =
      .ok ⟨some "nope".data, none, none, none, none⟩ ∧
    choosePresentationSource (some ⟨some "nope".data, none, none, none, none⟩)
      (fun _ => true) = .blank ∧
    choosePresentationSource (some ⟨none, none, none, none, none⟩) (fun _ => true) =
      choosePresentationSource none (fun _ => true) ∧
    choosePresentationSource (some ⟨some [], none, none, none, none⟩) (fun _ => true) =
      choosePresentationSource none (fun _ => true) ∧
    choosePresentationSource none (fun _ => true) =
      .fromTemplate "ppt_templates/ppt1.pptx".data := by
  have h := theme_fallback (fun _ => true) "nope".data (by decide) (by decide)
  exact ⟨h.1, h.2.1, h.2.2.1 ⟨none, none, none, none, none⟩ rfl,
    h.2.2.2.1 ⟨some [], none, none, none, none⟩ rfl, h.2.2.2.2⟩

/-! ## C3: the non-emptiness guarantee fails on the code -/

/-- C3, evaluated at the failing input: the single section
`{"heading": "H", "content": "Section alpha beta gamma\n!!!"}` has word count
4 ≥ 3 = `num_pages`, yet page 3 comes back empty: the Case B loop measures
word count on raw content but splits cleaned content, and cleaning drops the
word-bearing `"Section ..."` line, so after one split no page has positive
word count and the loop stops with an empty page left. -/
theorem distribute_nonempty_code_bug :
    wordCount "Section alpha beta gamma\n!!!".data = 4 ∧
    distributeSectionsAcrossPages
        [⟨"H".data, "Section alpha beta gamma\n!!!".data⟩] 3 =
      [(1, [⟨"H".data, "!!!".data⟩]), (2, [⟨"H (cont.)".data, []⟩]), (3, [])] :=
  ⟨by decide, by decide⟩

/-! ## Substring toolbox for the no-fabrication and idempotence proofs -/

theorem sufSub {α : Type _} {l₁ l₂ : List α} (h : l₁ <:+ l₂) : l₁ <:+: l₂ := by
  obtain ⟨t, ht⟩ := h
  exact ⟨t, [], by simp [ht]⟩

theorem preSub {α : Type _} {l₁ l₂ : List α} (h : l₁ <+: l₂) : l₁ <:+: l₂ := by
  obtain ⟨t, ht⟩ := h
  exact ⟨[], t, by simp [ht]⟩

theorem subConsOfSub {α : Type _} {l₁ l₂ : List α} {a : α} (h : l₁ <:+: l₂) :
    l₁ <:+: a :: l₂ :=
  h.trans (sufSub ⟨[a], rfl⟩)

/-- A non-empty all-word-character run inside `a ++ sep :: b` with a non-word
separator lies wholly inside `a` or wholly inside `b`. -/
theorem word_run_in_append {w : List Char} {sep : Char}
    (hw : ∀ c ∈ w, isWordChar c = true) (hwne : w ≠ [])
    (hsep : isWordChar sep = false) :
    ∀ (a b : List Char), w <:+: a ++ sep :: b → w <:+: a ∨ w <:+: b := by
  intro a
  induction a with
  | nil =>
    intro b h
    rw [List.nil_append] at h
    rcases List.infix_cons_iff.1 h with hpre | hsuf
    · cases w with
      | nil => exact absurd rfl hwne
      | cons c w' =>
        obtain ⟨t, ht⟩ := hpre
        have hc : c = sep := by injection ht
        have : isWordChar sep = true := hc ▸ hw c (List.mem_cons_self c w')
        rw [this] at hsep
        simp at hsep
    · exact Or.inr hsuf
  | cons x a' ih =>
    intro b h
    rw [List.cons_append] at h
    rcases List.infix_cons_iff.1 h with hpre | hsuf
    · cases w with
      | nil => exact absurd rfl hwne
      | cons c w' =>
        obtain ⟨t, ht⟩ := hpre
        have hc : c = x := by injection ht
        have h2 : w' ++ t = a' ++ sep :: b := by
          injection ht
        subst hc
        rcases List.append_eq_append_iff.1 h2 with ⟨a'', ha, _⟩ | ⟨c', hw', hsep'⟩
        · -- a' = w' ++ a'', so w = c :: w' is a prefix of c :: a'
          exact Or.inl (preSub ⟨a'', by rw [ha, List.cons_append]⟩)
        · -- w' = a' ++ c' and sep :: b = c' ++ t
          cases c' with
          | nil =>
            rw [List.append_nil] at hw'
            exact Or.inl (preSub ⟨[], by simp [hw']⟩)
          | cons d c'' =>
            have hd : sep = d := by injection hsep'
            have hmem : sep ∈ c :: w' := by
              rw [hw', hd]
              exact List.mem_cons_of_mem _ (List.mem_append_right _ (List.mem_cons_self _ _))
            have : isWordChar sep = true := hw sep hmem
            rw [this] at hsep
            simp at hsep
    · rcases ih b hsuf with h' | h'
      · exact Or.inl (subConsOfSub h')
      · exact Or.inr h'

/-- A non-empty all-word run inside `sep.join(pieces)` lies inside one of the
pieces, for a non-word separator. -/
theorem word_run_in_joinSep {w : List Char} {sep : Char}
    (hw : ∀ c ∈ w, isWordChar c = true) (hwne : w ≠ [])
    (hsep : isWordChar sep = false) :
    ∀ (pieces : List (List Char)), w <:+: joinSep sep pieces →
      ∃ p ∈ pieces, w <:+: p := by
  intro pieces
  induction pieces with
  | nil =>
    intro h
    exact absurd (List.infix_nil.1 h) hwne
  | cons x rest ih =>
    intro h
    cases rest with
    | nil => exact ⟨x, List.mem_cons_self _ _, h⟩
    | cons y rest' =>
      rw [show joinSep sep (x :: y :: rest') = x ++ sep :: joinSep sep (y :: rest')
        from rfl] at h
      rcases word_run_in_append hw hwne hsep _ _ h with h' | h'
      · exact ⟨x, List.mem_cons_self _ _, h'⟩
      · obtain ⟨p, hp, hwp⟩ := ih h'
        exact ⟨p, List.mem_cons_of_mem _ hp, hwp⟩

/-- Every run found by `wordRunsF` is a non-empty all-word-character
substring of the text. -/
theorem wordRunsF_spec (fuel : Nat) :
    ∀ l : List Char, l.length ≤ fuel →
      ∀ w ∈ wordRunsF fuel l,
        (∀ c ∈ w, isWordChar c = true) ∧ w ≠ [] ∧ w <:+: l := by
  induction fuel with
  | zero => intro l hl w hw; simp [wordRunsF] at hw
  | succ fuel ih =>
    intro l hl w hw
    cases l with
    | nil => simp [wordRunsF] at hw
    | cons c cs =>
      simp only [wordRunsF] at hw
      by_cases hc : isWordChar c = true
      · rw [if_pos hc] at hw
        rcases List.mem_cons.1 hw with rfl | hw'
        · refine ⟨?_, by simp, ?_⟩
          · intro d hd
            rcases List.mem_cons.1 hd with rfl | hd'
            · exact hc
            · exact List.mem_takeWhile_imp hd'
          · exact preSub ⟨cs.dropWhile isWordChar, by
              rw [List.cons_append, List.takeWhile_append_dropWhile]⟩
        · have hlen : (cs.dropWhile isWordChar).length ≤ fuel :=
            le_trans ((List.dropWhile_sublist _).length_le) (by simpa using hl)
          obtain ⟨h1, h2, h3⟩ := ih _ hlen w hw'
          exact ⟨h1, h2, subConsOfSub (h3.trans (sufSub (List.dropWhile_suffix _)))⟩
      · rw [if_neg hc] at hw
        have hlen : cs.length ≤ fuel := by simpa using hl
        obtain ⟨h1, h2, h3⟩ := ih cs hlen w hw
        exact ⟨h1, h2, subConsOfSub h3⟩

theorem wordRuns_spec (l : List Char) :
    ∀ w ∈ wordRuns l, (∀ c ∈ w, isWordChar c = true) ∧ w ≠ [] ∧ w <:+: l :=
  wordRunsF_spec l.length l (Nat.le_refl _)

theorem revDropWhile_pre {α : Type _} (p : α → Bool) (x : List α) :
    (x.reverse.dropWhile p).reverse <+: x := by
  obtain ⟨t, ht⟩ := List.dropWhile_suffix (l := x.reverse) p
  exact ⟨t.reverse, by rw [← List.reverse_append, ht, List.reverse_reverse]⟩

theorem pyStrip_sub (l : List Char) : pyStrip l <:+: l :=
  (preSub (revDropWhile_pre isWS (l.dropWhile isWS))).trans
    (sufSub (List.dropWhile_suffix _))

theorem preCons {α : Type _} {l₁ l₂ : List α} (c : α) (h : l₁ <+: l₂) :
    c :: l₁ <+: c :: l₂ := by
  obtain ⟨t, ht⟩ := h
  exact ⟨t, by rw [List.cons_append, ht]⟩

/-- `splitNL` never returns the empty list; its head is a prefix of the
text, all pieces are newline-free substrings. -/
theorem splitNL_shape :
    ∀ x : List Char, ∃ l ls, splitNL x = l :: ls ∧ l <+: x ∧ '\n' ∉ l ∧
      ∀ p ∈ ls, p <:+: x ∧ '\n' ∉ p := by
  intro x
  induction x with
  | nil => exact ⟨[], [], rfl, List.nil_prefix, by simp, by simp⟩
  | cons c cs ih =>
    obtain ⟨l, ls, heq, hpre, hnl, hrest⟩ := ih
    by_cases hc : c = '\n'
    · subst hc
      refine ⟨[], splitNL cs, by simp [splitNL], List.nil_prefix, by simp, ?_⟩
      intro p hp
      rw [heq] at hp
      rcases List.mem_cons.1 hp with rfl | hp'
      · exact ⟨subConsOfSub (preSub hpre), hnl⟩
      · exact ⟨subConsOfSub (hrest p hp').1, (hrest p hp').2⟩
    · refine ⟨c :: l, ls, ?_, ?_, ?_, ?_⟩
      · simp only [splitNL, if_neg hc, heq]
      · exact preCons c hpre
      · simp only [List.mem_cons, not_or]
        exact ⟨fun h => hc h.symm, hnl⟩
      · intro p hp
        exact ⟨subConsOfSub (hrest p hp).1, (hrest p hp).2⟩

theorem splitNL_piece_sub (x : List Char) :
    ∀ p ∈ splitNL x, p <:+: x ∧ '\n' ∉ p := by
  obtain ⟨l, ls, heq, hpre, hnl, hrest⟩ := splitNL_shape x
  rw [heq]
  intro p hp
  rcases List.mem_cons.1 hp with rfl | hp'
  · exact ⟨preSub hpre, hnl⟩
  · exact hrest p hp'

/-- `sentSplitF` never returns the empty list; its head is a prefix of the
text and every other sentence is a substring. -/
theorem sentSplitF_shape (fuel : Nat) :
    ∀ l : List Char, l.length ≤ fuel →
      ∃ s ss, sentSplitF fuel l = s :: ss ∧ s <+: l ∧ ∀ p ∈ ss, p <:+: l := by
  induction fuel with
  | zero =>
    intro l _
    exact ⟨l, [], rfl, List.prefix_refl l, by simp⟩
  | succ fuel ih =>
    intro l hl
    cases l with
    | nil => exact ⟨[], [], rfl, List.nil_prefix, by simp⟩
    | cons c rest =>
      simp only [sentSplitF]
      split
      · refine ⟨[c], sentSplitF fuel (rest.dropWhile isWS), rfl, ⟨rest, rfl⟩, ?_⟩
        intro p hp
        have hlen : (rest.dropWhile isWS).length ≤ fuel :=
          le_trans ((List.dropWhile_sublist _).length_le) (by simpa using hl)
        obtain ⟨s', ss', heq, hpre', hrest'⟩ := ih _ hlen
        rw [heq] at hp
        rcases List.mem_cons.1 hp with rfl | hp'
        · exact subConsOfSub ((preSub hpre').trans (sufSub (List.dropWhile_suffix _)))
        · exact subConsOfSub ((hrest' p hp').trans (sufSub (List.dropWhile_suffix _)))
      · have hlen : rest.length ≤ fuel := by simpa using hl
        obtain ⟨s', ss', heq, hpre', hrest'⟩ := ih rest hlen
        rw [heq]
        refine ⟨c :: s', ss', rfl, preCons c hpre', ?_⟩
        intro p hp
        exact subConsOfSub (hrest' p hp)

/-- All sentences produced by `sentSplit` are substrings of the text. -/
theorem sentSplit_piece_sub (l : List Char) : ∀ p ∈ sentSplit l, p <:+: l := by
  obtain ⟨s, ss, heq, hpre, hrest⟩ := sentSplitF_shape l.length l (Nat.le_refl _)
  rw [sentSplit, heq]
  intro p hp
  rcases List.mem_cons.1 hp with rfl | hp'
  · exact preSub hpre
  · exact hrest p hp'

/-- The chunks and the leftover of `chunkList` together are exactly the
input: no sentence is dropped. -/
theorem chunkList_cover {α : Type _} (size : Nat) (k : Nat) :
    ∀ xs : List α, (chunkList size xs k).1.flatten ++ (chunkList size xs k).2 = xs := by
  induction k with
  | zero => intro xs; rfl
  | succ k ih =>
    intro xs
    simp only [chunkList, List.flatten_cons, List.append_assoc, ih]
    exact List.take_append_drop size xs

theorem chunkList_chunk_mem {α : Type _} (size : Nat) (k : Nat) :
    ∀ (xs : List α), ∀ ch ∈ (chunkList size xs k).1, ∀ a ∈ ch, a ∈ xs := by
  induction k with
  | zero => intro xs ch hch; simp [chunkList] at hch
  | succ k ih =>
    intro xs ch hch a ha
    simp only [chunkList, List.mem_cons] at hch
    rcases hch with rfl | hch'
    · exact List.mem_of_mem_take ha
    · exact List.mem_of_mem_drop (ih _ ch hch' a ha)

theorem chunkList_rest_mem {α : Type _} (size : Nat) (k : Nat) :
    ∀ (xs : List α), ∀ a ∈ (chunkList size xs k).2, a ∈ xs := by
  induction k with
  | zero => intro xs a ha; exact ha
  | succ k ih =>
    intro xs a ha
    simp only [chunkList] at ha
    exact List.mem_of_mem_drop (ih _ a ha)

theorem balancedChunks_chunk_mem {α : Type _} (base : Nat) (k : Nat) :
    ∀ (xs : List α) (rem : Nat), ∀ ch ∈ balancedChunks base xs k rem, ∀ a ∈ ch, a ∈ xs := by
  induction k with
  | zero => intro xs rem ch hch; simp [balancedChunks] at hch
  | succ k ih =>
    intro xs rem ch hch a ha
    simp only [balancedChunks, List.mem_cons] at hch
    rcases hch with rfl | hch'
    · exact List.mem_of_mem_take ha
    · exact List.mem_of_mem_drop (ih _ _ ch hch' a ha)

/-! Word runs survive the newline-normalisation replacements backwards:
an all-word substring of the replaced text occurs in the original. -/

theorem replaceCRLF_word_pre :
    ∀ (x w : List Char), (∀ c ∈ w, isWordChar c = true) →
      w <+: replaceCRLF x → w <+: x := by
  intro x
  induction x using replaceCRLF.induct with
  | case1 =>
    intro w _ h
    simpa [replaceCRLF] using h
  | case2 c =>
    intro w _ h
    simpa [replaceCRLF] using h
  | case3 c d rest hcd ih =>
    intro w hw h
    obtain ⟨rfl, rfl⟩ := hcd
    rw [replaceCRLF, if_pos ⟨rfl, rfl⟩] at h
    cases w with
    | nil => exact List.nil_prefix
    | cons e w' =>
      obtain ⟨t, ht⟩ := h
      have he : e = '\n' := by injection ht
      have := hw e (List.mem_cons_self _ _)
      rw [he] at this
      simp [isWordChar, Char.isAlphanum, Char.isAlpha, Char.isUpper, Char.isLower,
        Char.isDigit] at this
  | case4 c d rest hcd ih =>
    intro w hw h
    rw [replaceCRLF, if_neg hcd] at h
    cases w with
    | nil => exact List.nil_prefix
    | cons e w' =>
      obtain ⟨t, ht⟩ := h
      have he : e = c := by injection ht
      have hw' : w' <+: replaceCRLF (d :: rest) := ⟨t, by injection ht⟩
      subst he
      exact preCons e (ih w' (fun a ha => hw a (List.mem_cons_of_mem _ ha)) hw')

theorem replaceCRLF_word_sub :
    ∀ (x w : List Char), (∀ c ∈ w, isWordChar c = true) →
      w <:+: replaceCRLF x → w <:+: x := by
  intro x
  induction x using replaceCRLF.induct with
  | case1 =>
    intro w _ h
    simpa [replaceCRLF] using h
  | case2 c =>
    intro w _ h
    simpa [replaceCRLF] using h
  | case3 c d rest hcd ih =>
    intro w hw h
    obtain ⟨rfl, rfl⟩ := hcd
    rw [replaceCRLF, if_pos ⟨rfl, rfl⟩] at h
    rcases List.infix_cons_iff.1 h with hpre | hsuf
    · cases w with
      | nil => exact ⟨[], '\r' :: '\n' :: rest, rfl⟩
      | cons e w' =>
        obtain ⟨t, ht⟩ := hpre
        have he : e = '\n' := by injection ht
        have := hw e (List.mem_cons_self _ _)
        rw [he] at this
        simp [isWordChar, Char.isAlphanum, Char.isAlpha, Char.isUpper, Char.isLower,
          Char.isDigit] at this
    · exact (ih w hw hsuf).trans (sufSub ⟨['\r', '\n'], rfl⟩)
  | case4 c d rest hcd ih =>
    intro w hw h
    rw [replaceCRLF, if_neg hcd] at h
    rcases List.infix_cons_iff.1 h with hpre | hsuf
    · cases w with
      | nil => exact ⟨[], c :: d :: rest, rfl⟩
      | cons e w' =>
        obtain ⟨t, ht⟩ := hpre
        have he : e = c := by injection ht
        have hw' : w' <+: replaceCRLF (d :: rest) := ⟨t, by injection ht⟩
        subst he
        exact preSub (preCons e
          (replaceCRLF_word_pre _ w' (fun a ha => hw a (List.mem_cons_of_mem _ ha)) hw'))
    · exact subConsOfSub (ih w hw hsuf)

theorem mapCR_word_pre :
    ∀ (x w : List Char), (∀ c ∈ w, isWordChar c = true) →
      w <+: mapCR x → w <+: x := by
  intro x
  induction x with
  | nil =>
    intro w _ h
    simpa [mapCR] using h
  | cons c cs ih =>
    intro w hw h
    rw [show mapCR (c :: cs) = (if c = '\r' then '\n' else c) :: mapCR cs from rfl] at h
    cases w with
    | nil => exact List.nil_prefix
    | cons e w' =>
      obtain ⟨t, ht⟩ := h
      have he : e = if c = '\r' then '\n' else c := by injection ht
      have hw' : w' <+: mapCR cs := ⟨t, by injection ht⟩
      have hword := hw e (List.mem_cons_self _ _)
      have hec : e = c := by
        by_cases hc : c = '\r'
        · rw [if_pos hc] at he
          rw [he] at hword
          simp [isWordChar, Char.isAlphanum, Char.isAlpha, Char.isUpper, Char.isLower,
            Char.isDigit] at hword
        · rw [if_neg hc] at he
          exact he
      subst hec
      exact preCons e (ih w' (fun a ha => hw a (List.mem_cons_of_mem _ ha)) hw')

theorem mapCR_word_sub :
    ∀ (x w : List Char), (∀ c ∈ w, isWordChar c = true) →
      w <:+: mapCR x → w <:+: x := by
  intro x
  induction x with
  | nil =>
    intro w _ h
    simpa [mapCR] using h
  | cons c cs ih =>
    intro w hw h
    rw [show mapCR (c :: cs) = (if c = '\r' then '\n' else c) :: mapCR cs from rfl] at h
    rcases List.infix_cons_iff.1 h with hpre | hsuf
    · exact preSub (mapCR_word_pre (c :: cs) w hw (by
        rw [show mapCR (c :: cs) = (if c = '\r' then '\n' else c) :: mapCR cs from rfl]
        exact hpre))
    · exact subConsOfSub (ih w hw hsuf)

theorem replaceEsc_word_pre :
    ∀ (x w : List Char), (∀ c ∈ w, isWordChar c = true) →
      w <+: replaceEsc x → w <+: x := by
  intro x
  induction x using replaceEsc.induct with
  | case1 =>
    intro w _ h
    simpa [replaceEsc] using h
  | case2 c =>
    intro w _ h
    simpa [replaceEsc] using h
  | case3 c d rest hcd ih =>
    intro w hw h
    obtain ⟨rfl, rfl⟩ := hcd
    rw [replaceEsc, if_pos ⟨rfl, rfl⟩] at h
    cases w with
    | nil => exact List.nil_prefix
    | cons e w' =>
      obtain ⟨t, ht⟩ := h
      have he : e = '\n' := by injection ht
      have := hw e (List.mem_cons_self _ _)
      rw [he] at this
      simp [isWordChar, Char.isAlphanum, Char.isAlpha, Char.isUpper, Char.isLower,
        Char.isDigit] at this
  | case4 c d rest hcd ih =>
    intro w hw h
    rw [replaceEsc, if_neg hcd] at h
    cases w with
    | nil => exact List.nil_prefix
    | cons e w' =>
      obtain ⟨t, ht⟩ := h
      have he : e = c := by injection ht
      have hw' : w' <+: replaceEsc (d :: rest) := ⟨t, by injection ht⟩
      subst he
      exact preCons e (ih w' (fun a ha => hw a (List.mem_cons_of_mem _ ha)) hw')

theorem replaceEsc_word_sub :
    ∀ (x w : List Char), (∀ c ∈ w, isWordChar c = true) →
      w <:+: replaceEsc x → w <:+: x := by
  intro x
  induction x using replaceEsc.induct with
  | case1 =>
    intro w _ h
    simpa [replaceEsc] using h
  | case2 c =>
    intro w _ h
    simpa [replaceEsc] using h
  | case3 c d rest hcd ih =>
    intro w hw h
    obtain ⟨rfl, rfl⟩ := hcd
    rw [replaceEsc, if_pos ⟨rfl, rfl⟩] at h
    rcases List.infix_cons_iff.1 h with hpre | hsuf
    · cases w with
      | nil => exact ⟨[], '\\' :: 'n' :: rest, rfl⟩
      | cons e w' =>
        obtain ⟨t, ht⟩ := hpre
        have he : e = '\n' := by injection ht
        have := hw e (List.mem_cons_self _ _)
        rw [he] at this
        simp [isWordChar, Char.isAlphanum, Char.isAlpha, Char.isUpper, Char.isLower,
          Char.isDigit] at this
    · exact (ih w hw hsuf).trans (sufSub ⟨['\\', 'n'], rfl⟩)
  | case4 c d rest hcd ih =>
    intro w hw h
    rw [replaceEsc, if_neg hcd] at h
    rcases List.infix_cons_iff.1 h with hpre | hsuf
    · cases w with
      | nil => exact ⟨[], c :: d :: rest, rfl⟩
      | cons e w' =>
        obtain ⟨t, ht⟩ := hpre
        have he : e = c := by injection ht
        have hw' : w' <+: replaceEsc (d :: rest) := ⟨t, by injection ht⟩
        subst he
        exact preSub (preCons e
          (replaceEsc_word_pre _ w' (fun a ha => hw a (List.mem_cons_of_mem _ ha)) hw'))
    · exact subConsOfSub (ih w hw hsuf)

/-- An all-word substring of the newline-normalised text occurs in the raw
text. -/
theorem normalizeNewlines_word_sub (raw w : List Char)
    (hw : ∀ c ∈ w, isWordChar c = true) (h : w <:+: normalizeNewlines raw) :
    w <:+: raw :=
  replaceCRLF_word_sub raw w hw
    (mapCR_word_sub (replaceCRLF raw) w hw
      (replaceEsc_word_sub (mapCR (replaceCRLF raw)) w hw h))

theorem collapseBlanks_mem :
    ∀ (b : Bool) (ls : List (List Char)), ∀ a ∈ collapseBlanks b ls, a ∈ ls := by
  intro b ls
  induction ls generalizing b with
  | nil => intro a ha; simp [collapseBlanks] at ha
  | cons x rest ih =>
    intro a ha
    simp only [collapseBlanks] at ha
    by_cases hx : x.isEmpty
    · rw [if_pos hx] at ha
      cases b with
      | true =>
        rw [if_pos rfl] at ha
        exact List.mem_cons_of_mem _ (ih true a ha)
      | false =>
        rw [if_neg (by simp)] at ha
        rcases List.mem_cons.1 ha with rfl | ha'
        · have : x = [] := List.isEmpty_iff.1 hx
          rw [this]
          exact List.mem_cons_self _ _
        · exact List.mem_cons_of_mem _ (ih true a ha')
    · rw [if_neg hx] at ha
      rcases List.mem_cons.1 ha with rfl | ha'
      · exact List.mem_cons_self _ _
      · exact List.mem_cons_of_mem _ (ih false a ha')

theorem trimTrail_mem (ls : List (List Char)) : ∀ a ∈ trimTrail ls, a ∈ ls := by
  intro a ha
  unfold trimTrail at ha
  rw [List.mem_reverse] at ha
  have := (List.dropWhile_sublist _).mem ha
  rw [List.mem_reverse] at this
  exact this

/-- A cleaned line always is the strip of one of the newline-split lines of
the normalised raw text. -/
theorem cleanedLines_mem (dt hd raw : List Char) :
    ∀ a ∈ cleanedLines dt hd raw, a ∈ (splitNL (normalizeNewlines raw)).map pyStrip := by
  intro a ha
  unfold cleanedLines at ha
  have h1 := trimTrail_mem _ a ha
  have h2 := (List.dropWhile_sublist _).mem h1
  have h3 := collapseBlanks_mem _ _ a h2
  exact (stripMeta_suffix _ _ _).sublist.mem h3

/-- An all-word, non-empty substring of `_clean_section_content`'s output
occurs in the raw input: the cleaner invents no words. -/
theorem clean_word_sub (dt hd raw w : List Char)
    (hw : ∀ c ∈ w, isWordChar c = true) (hwne : w ≠ [])
    (h : w <:+: cleanSectionContent dt hd raw) : w <:+: raw := by
  unfold cleanSectionContent at h
  by_cases hr : raw.isEmpty
  · rw [if_pos hr] at h
    exact absurd (List.infix_nil.1 h) hwne
  · rw [if_neg hr] at h
    have h2 : w <:+: joinNL (cleanedLines dt hd raw) := h.trans (pyStrip_sub _)
    obtain ⟨line, hline, hwl⟩ :=
      word_run_in_joinSep hw hwne (by decide) _ h2
    obtain ⟨l₀, hl₀, rfl⟩ := List.mem_map.1 (cleanedLines_mem dt hd raw line hline)
    have h3 : w <:+: normalizeNewlines raw :=
      (hwl.trans (pyStrip_sub l₀)).trans (splitNL_piece_sub _ l₀ hl₀).1
    exact normalizeNewlines_word_sub raw w hw h3

theorem snd_mem_of_mem_enum {α : Type _} {l : List α} {x : Nat × α} (h : x ∈ l.enum) :
    x.2 ∈ l := by
  rw [List.mem_enum_iff_getElem?] at h
  exact List.getElem?_mem h

/-- An all-word, non-empty substring of a paragraph of the cleaned content
occurs in the raw section content. -/
theorem paragraph_word_sub (s : Sec) (p v : List Char)
    (hp : p ∈ paragraphsOf (cleanSectionContent [] s.heading s.content))
    (hv : ∀ c ∈ v, isWordChar c = true) (hvne : v ≠ []) (hvp : v <:+: p) :
    v <:+: s.content := by
  have hp' := List.mem_of_mem_filter hp
  obtain ⟨l₀, hl₀, rfl⟩ := List.mem_map.1 hp'
  have h1 : v <:+: cleanSectionContent [] s.heading s.content :=
    (hvp.trans (pyStrip_sub _)).trans (splitNL_piece_sub _ _ hl₀).1
  exact clean_word_sub [] s.heading s.content v hv hvne h1

/-- An all-word, non-empty substring of the joined paragraph text occurs in
the raw section content. -/
theorem paragraph_text_word_sub (s : Sec) (v : List Char)
    (hv : ∀ c ∈ v, isWordChar c = true) (hvne : v ≠ [])
    (hvT : v <:+: joinNL (paragraphsOf (cleanSectionContent [] s.heading s.content))) :
    v <:+: s.content := by
  obtain ⟨p, hp, hvp⟩ := word_run_in_joinSep hv hvne (by decide) _ hvT
  exact paragraph_word_sub s p v hp hv hvne hvp

theorem sentences_sub (T : List Char) :
    ∀ q ∈ (if (sentSplit T).isEmpty then [T] else sentSplit T), q <:+: T := by
  intro q hq
  split at hq
  · simp only [List.mem_singleton] at hq
    subst hq
    exact List.infix_refl _
  · exact sentSplit_piece_sub T q hq

/-- Every word of a sentence-branch output chunk occurs in the raw section
content. -/
theorem out_member_word_sub (s : Sec) (cs parts : Nat) (sentences : List (List Char))
    (hsent_sub : ∀ q ∈ sentences,
      q <:+: joinNL (paragraphsOf (cleanSectionContent [] s.heading s.content)))
    (q : Sec)
    (hq : q ∈ ((chunkList cs sentences parts).1.enum.map
      (fun p => { heading := partHeading s.heading p.1,
                  content := pyStrip (joinSpace p.2) : Sec })))
    (v : List Char) (hv : ∀ c ∈ v, isWordChar c = true) (hvne : v ≠ [])
    (hvq : v <:+: q.content) : v <:+: s.content := by
  obtain ⟨⟨i, ch⟩, hmem, rfl⟩ := List.mem_map.1 hq
  have hch := snd_mem_of_mem_enum hmem
  have h1 : v <:+: joinSpace ch := hvq.trans (pyStrip_sub _)
  obtain ⟨sent, hsent, hvs⟩ := word_run_in_joinSep hv hvne (by decide) _ h1
  have hss : sent ∈ sentences := chunkList_chunk_mem cs parts sentences ch hch sent hsent
  exact paragraph_text_word_sub s v hv hvne (hvs.trans (hsent_sub sent hss))

/-- C8: `split_section_into_parts` fabricates no words — every maximal
`\w`-run of every part's content occurs verbatim in the original section
content — and the sentence-level chunking drops no sentence: the chunks plus
the leftover (appended to the final part) are exactly the sentence list. -/
theorem split_no_new_words (s : Sec) (parts : Nat) :
    (∀ part ∈ splitSectionIntoParts s parts, ∀ w ∈ wordRuns part.content,
      w <:+: s.content) ∧
    (∀ (size k : Nat) (xs : List (List Char)),
      (chunkList size xs k).1.flatten ++ (chunkList size xs k).2 = xs) := by
  constructor
  · intro part hpart w hw
    obtain ⟨hword, hwne, hwin⟩ := wordRuns_spec part.content w hw
    simp only [splitSectionIntoParts] at hpart
    by_cases hp0 :
        (paragraphsOf (cleanSectionContent [] s.heading s.content)).isEmpty = true
    · rw [if_pos hp0] at hpart
      obtain ⟨_, _, rfl⟩ := List.mem_map.1 hpart
      simp [wordRuns, wordRunsF] at hw
    · rw [if_neg hp0] at hpart
      by_cases hlt :
          (paragraphsOf (cleanSectionContent [] s.heading s.content)).length < parts
      · rw [if_pos hlt] at hpart
        have hsub := sentences_sub
          (joinNL (paragraphsOf (cleanSectionContent [] s.heading s.content)))
        generalize hS : (if (sentSplit (joinNL (paragraphsOf
              (cleanSectionContent [] s.heading s.content)))).isEmpty = true
            then [joinNL (paragraphsOf (cleanSectionContent [] s.heading s.content))]
            else sentSplit (joinNL (paragraphsOf
              (cleanSectionContent [] s.heading s.content)))) = S at hpart hsub
        split at hpart
        · exact out_member_word_sub s _ parts S hsub part hpart w hword hwne hwin
        · rcases List.mem_append.1 hpart with hin | hin
          · exact out_member_word_sub s _ parts S hsub part
              ((List.dropLast_sublist _).mem hin) w hword hwne hwin
          · rcases hg : ((chunkList (max 1 (S.length / parts)) S parts).1.enum.map
                (fun p => { heading := partHeading s.heading p.1,
                            content := pyStrip (joinSpace p.2) : Sec })).getLast? with
              _ | lastq
            · rw [hg] at hin
              simp [Option.elim] at hin
            · rw [hg] at hin
              simp only [Option.elim, List.mem_singleton] at hin
              subst hin
              have h1 : w <:+: lastq.content ++ ' ' ::
                  joinSpace (chunkList (max 1 (S.length / parts)) S parts).2 :=
                hwin.trans (pyStrip_sub _)
              rcases word_run_in_append hword hwne (by decide) _ _ h1 with h2 | h2
              · exact out_member_word_sub s _ parts S hsub lastq
                  (List.mem_of_mem_getLast? hg) w hword hwne h2
              · obtain ⟨sent, hsent, hvs⟩ := word_run_in_joinSep hword hwne (by decide) _ h2
                exact paragraph_text_word_sub s w hword hwne
                  (hvs.trans (hsub sent (chunkList_rest_mem _ parts _ sent hsent)))
      · rw [if_neg hlt] at hpart
        obtain ⟨⟨i, ch⟩, hmem, rfl⟩ := List.mem_map.1 hpart
        have hch := snd_mem_of_mem_enum hmem
        have h1 : w <:+: joinNL ch := hwin.trans (pyStrip_sub _)
        obtain ⟨p, hp, hwp⟩ := word_run_in_joinSep hword hwne (by decide) _ h1
        exact paragraph_word_sub s p w
          (balancedChunks_chunk_mem _ parts _ _ ch hch p hp) hword hwne hwp
  · intro size k xs
    exact chunkList_cover size k xs

/-- Witness for C8 on the three-sentence section split in two parts. -/
theorem split_no_new_words_witness :
    (⟨"H (cont.)".data, "B. C.".data⟩ : Sec) ∈
      splitSectionIntoParts ⟨"H".data, "A. B. C.".data⟩ 2 ∧
    "B".data ∈ wordRuns ("B. C.".data) ∧
    "B".data <:+: "A. B. C.".data ∧
    ((chunkList 1 ["A.".data, "B.".data, "C.".data] 2).1.flatten ++
      (chunkList 1 ["A.".data, "B.".data, "C.".data] 2).2 =
      ["A.".data, "B.".data, "C.".data]) := by
  refine ⟨by decide, by decide, ?_, ?_⟩
  · exact (split_no_new_words ⟨"H".data, "A. B. C.".data⟩ 2).1
      ⟨"H (cont.)".data, "B. C.".data⟩ (by decide) "B".data (by decide)
  · exact (split_no_new_words ⟨"H".data, "A. B. C.".data⟩ 2).2 1 2
      ["A.".data, "B.".data, "C.".data]

/-! ## C5: idempotence of the Text Normalizer — list utilities -/

theorem chainSub {α : Type _} {R : α → α → Prop} {l₁ l₂ : List α}
    (h : List.Chain' R l₂) (hsub : l₁ <:+: l₂) : List.Chain' R l₁ := by
  obtain ⟨s, t, rfl⟩ := hsub
  exact (List.chain'_append.1 (List.chain'_append.1 h).1).2.1

theorem subMem {α : Type _} {l₁ l₂ : List α} {a : α} (hsub : l₁ <:+: l₂) (ha : a ∈ l₁) :
    a ∈ l₂ :=
  hsub.sublist.mem ha

theorem dropWhileHeadFalse {α : Type _} {p : α → Bool} {l : List α} {a : α}
    (h : (l.dropWhile p).head? = some a) : p a = false := by
  induction l with
  | nil => simp at h
  | cons x rest ih =>
    by_cases hx : p x = true
    · rw [List.dropWhile_cons_of_pos hx] at h
      exact ih h
    · rw [List.dropWhile_cons_of_neg hx] at h
      simp only [List.head?_cons, Option.some.injEq] at h
      subst h
      exact Bool.not_eq_true _ ▸ hx

theorem dropWhileEqSelf {α : Type _} {p : α → Bool} {l : List α}
    (h : ∀ a ∈ l.head?, p a = false) : l.dropWhile p = l := by
  cases l with
  | nil => rfl
  | cons x rest =>
    have := h x (by simp)
    rw [List.dropWhile_cons_of_neg (by simp [this])]

theorem preHead {α : Type _} {l₁ l₂ : List α} (h : l₁ <+: l₂) (hne : l₁ ≠ []) :
    l₂.head? = l₁.head? := by
  obtain ⟨t, rfl⟩ := h
  cases l₁ with
  | nil => exact absurd rfl hne
  | cons x rest => rfl

theorem sufLast {α : Type _} {l₁ l₂ : List α} (h : l₁ <:+ l₂) (hne : l₁ ≠ []) :
    l₂.getLast? = l₁.getLast? := by
  obtain ⟨t, rfl⟩ := h
  exact List.getLast?_append_of_ne_nil t hne

theorem dropWhileAppendLast {α : Type _} {p : α → Bool} {b : α} (hb : p b = false) :
    ∀ A : List α, List.dropWhile p (A ++ [b]) = List.dropWhile p A ++ [b] := by
  intro A
  induction A with
  | nil => simp [List.dropWhile, hb]
  | cons a A' ih =>
    by_cases ha : p a = true
    · rw [List.cons_append, List.dropWhile_cons_of_pos ha, ih,
        List.dropWhile_cons_of_pos ha]
    · rw [List.cons_append, List.dropWhile_cons_of_neg ha,
        List.dropWhile_cons_of_neg ha, List.cons_append]

theorem trimTrail_cons {x : List Char} {X : List (List Char)} (hx : x.isEmpty = false) :
    trimTrail (x :: X) = x :: trimTrail X := by
  unfold trimTrail
  rw [List.reverse_cons, dropWhileAppendLast hx, List.reverse_append]
  rfl

theorem trimTrail_all_blank {Z : List (List Char)} (h : ∀ m ∈ Z, m.isEmpty = true) :
    trimTrail Z = [] := by
  unfold trimTrail
  rw [List.dropWhile_eq_nil_iff.2 (fun m hm => h m (List.mem_reverse.1 hm))]
  rfl

theorem joinSepHead {sep : Char} {l : List Char} (rest : List (List Char))
    (hl : l ≠ []) : (joinSep sep (l :: rest)).head? = l.head? := by
  cases rest with
  | nil => rfl
  | cons y rest' =>
    rw [show joinSep sep (l :: y :: rest') = l ++ sep :: joinSep sep (y :: rest') from rfl,
      List.head?_append]
    cases l with
    | nil => exact absurd rfl hl
    | cons c l' => rfl

theorem joinSepLast {sep : Char} :
    ∀ (ls : List (List Char)) (l : List Char), ls.getLast? = some l → l ≠ [] →
      (joinSep sep ls).getLast? = l.getLast? := by
  intro ls
  induction ls with
  | nil => intro l h; simp at h
  | cons x rest ih =>
    intro l h hl
    cases rest with
    | nil =>
      simp only [List.getLast?_singleton, Option.some.injEq] at h
      subst h
      rfl
    | cons y rest' =>
      rw [List.getLast?_cons_cons] at h
      rw [show joinSep sep (x :: y :: rest') = x ++ sep :: joinSep sep (y :: rest') from rfl,
        List.getLast?_append_of_ne_nil x (by simp)]
      have hj := ih l h hl
      have hjoin_ne : joinSep sep (y :: rest') ≠ [] := by
        intro hnil
        rw [hnil] at hj
        simp only [List.getLast?_nil] at hj
        cases l with
        | nil => exact hl rfl
        | cons c l' => simp [List.getLast?_eq_getLast _ (by simp : (c :: l') ≠ [])] at hj
      rw [show ((sep :: joinSep sep (y :: rest')).getLast? : Option Char) =
        (joinSep sep (y :: rest')).getLast? from ?_, hj]
      cases hjj : joinSep sep (y :: rest') with
      | nil => exact absurd hjj hjoin_ne
      | cons c j' => exact List.getLast?_cons_cons

/-! ## C5 — properties of `pyStrip` -/

theorem pyStripLastNotWS {l : List Char} {c : Char}
    (h : (pyStrip l).getLast? = some c) : isWS c = false := by
  unfold pyStrip at h
  rw [List.getLast?_reverse] at h
  exact dropWhileHeadFalse h

theorem pyStripHeadNotWS {l : List Char} {c : Char}
    (h : (pyStrip l).head? = some c) : isWS c = false := by
  unfold pyStrip at h
  rw [List.head?_reverse] at h
  rcases hB : (l.dropWhile isWS).reverse.dropWhile isWS with _ | ⟨b, B'⟩
  · rw [hB] at h
    simp at h
  · rw [hB] at h
    have hlast : ((l.dropWhile isWS).reverse).getLast? = (b :: B').getLast? :=
      sufLast (hB ▸ List.dropWhile_suffix isWS) (by simp)
    rw [List.getLast?_reverse] at hlast
    have hhead : (l.dropWhile isWS).head? = some c := by rw [hlast, h]
    exact dropWhileHeadFalse hhead

theorem pyStrip_eq_self {l : List Char}
    (h1 : ∀ c ∈ l.head?, isWS c = false) (h2 : ∀ c ∈ l.getLast?, isWS c = false) :
    pyStrip l = l := by
  unfold pyStrip
  rw [dropWhileEqSelf h1]
  rw [dropWhileEqSelf (fun c hc => h2 c (by rwa [List.head?_reverse] at hc))]
  exact List.reverse_reverse l

theorem pyStrip_idem (l : List Char) : pyStrip (pyStrip l) = pyStrip l := by
  rcases hp : pyStrip l with _ | ⟨c, rest⟩
  · rfl
  · rw [← hp]
    refine pyStrip_eq_self (fun d hd => ?_) (fun d hd => ?_)
    · exact pyStripHeadNotWS (by simpa using hd)
    · exact pyStripLastNotWS (by simpa using hd)

/-! ## C5 — the replacements fix their own output -/

theorem replaceCRLF_eq_self : ∀ x : List Char, '\r' ∉ x → replaceCRLF x = x := by
  intro x
  induction x using replaceCRLF.induct with
  | case1 => intro _; rfl
  | case2 c => intro _; rfl
  | case3 c d rest hcd ih =>
    intro hx
    obtain ⟨rfl, rfl⟩ := hcd
    exact absurd (List.mem_cons_self _ _) (fun h => hx h)
  | case4 c d rest hcd ih =>
    intro hx
    rw [replaceCRLF, if_neg hcd, ih (fun h => hx (List.mem_cons_of_mem _ h))]

theorem mapCR_eq_self {x : List Char} (hx : '\r' ∉ x) : mapCR x = x := by
  unfold mapCR
  rw [List.map_congr_left (g := fun c => c)
    (fun c hc => if_neg (fun hcr => hx (by rw [← hcr]; exact hc)))]
  exact List.map_id' x

theorem replaceEsc_eq_self : ∀ x : List Char, NoEsc x → replaceEsc x = x := by
  intro x
  induction x using replaceEsc.induct with
  | case1 => intro _; rfl
  | case2 c => intro _; rfl
  | case3 c d rest hcd ih =>
    intro hx
    obtain ⟨rfl, rfl⟩ := hcd
    exact absurd ⟨rfl, rfl⟩ (List.chain'_cons.1 hx).1
  | case4 c d rest hcd ih =>
    intro hx
    rw [replaceEsc, if_neg hcd, ih (List.chain'_cons.1 hx).2]

theorem mapCR_no_cr (x : List Char) : '\r' ∉ mapCR x := by
  intro h
  obtain ⟨c, _, hc⟩ := List.mem_map.1 h
  by_cases hcr : c = '\r'
  · rw [if_pos hcr] at hc
    exact absurd hc (by decide)
  · rw [if_neg hcr] at hc
    exact hcr hc

theorem replaceEsc_mem : ∀ (x : List Char) (c : Char), c ∈ replaceEsc x →
    c ∈ x ∨ c = '\n' := by
  intro x
  induction x using replaceEsc.induct with
  | case1 => intro c hc; simp [replaceEsc] at hc
  | case2 d => intro c hc; exact Or.inl (by simpa [replaceEsc] using hc)
  | case3 c d rest hcd ih =>
    intro e he
    obtain ⟨rfl, rfl⟩ := hcd
    rw [replaceEsc, if_pos ⟨rfl, rfl⟩] at he
    rcases List.mem_cons.1 he with rfl | he'
    · exact Or.inr rfl
    · rcases ih e he' with h | h
      · exact Or.inl (List.mem_cons_of_mem _ (List.mem_cons_of_mem _ h))
      · exact Or.inr h
  | case4 c d rest hcd ih =>
    intro e he
    rw [replaceEsc, if_neg hcd] at he
    rcases List.mem_cons.1 he with rfl | he'
    · exact Or.inl (List.mem_cons_self _ _)
    · rcases ih e he' with h | h
      · exact Or.inl (List.mem_cons_of_mem _ h)
      · exact Or.inr h

theorem replaceEscHead : ∀ (x : List Char) (e : Char), (replaceEsc x).head? = some e →
    e = '\n' ∨ x.head? = some e := by
  intro x e he
  match x, he with
  | [], he => simp [replaceEsc] at he
  | [c], he =>
    simp only [replaceEsc, List.head?_cons, Option.some.injEq] at he
    exact Or.inr (by simp [he])
  | c :: d :: rest, he =>
    rw [replaceEsc] at he
    split at he
    · simp only [List.head?_cons, Option.some.injEq] at he
      exact Or.inl he.symm
    · simp only [List.head?_cons, Option.some.injEq] at he
      exact Or.inr (by simp [he])

theorem replaceEsc_noEsc : ∀ x : List Char, NoEsc (replaceEsc x) := by
  intro x
  induction x using replaceEsc.induct with
  | case1 => exact List.chain'_nil
  | case2 c => exact List.chain'_singleton c
  | case3 c d rest hcd ih =>
    obtain ⟨rfl, rfl⟩ := hcd
    rw [replaceEsc, if_pos ⟨rfl, rfl⟩]
    refine List.chain'_cons'.2 ⟨?_, ih⟩
    intro y _
    rintro ⟨h, _⟩
    exact absurd h (by decide)
  | case4 c d rest hcd ih =>
    rw [replaceEsc, if_neg hcd]
    refine List.chain'_cons'.2 ⟨?_, ih⟩
    intro y hy
    rintro ⟨rfl, rfl⟩
    rcases replaceEscHead (d :: rest) 'n' hy with h | h
    · exact absurd h (by decide)
    · simp only [List.head?_cons, Option.some.injEq] at h
      exact hcd ⟨rfl, h⟩

theorem joinSep_not_mem {c sep : Char} (hc : c ≠ sep) :
    ∀ ls : List (List Char), (∀ l ∈ ls, c ∉ l) → c ∉ joinSep sep ls := by
  intro ls
  induction ls with
  | nil => intro _; simp [joinSep]
  | cons x rest ih =>
    intro h
    cases rest with
    | nil => exact h x (List.mem_cons_self _ _)
    | cons y rest' =>
      rw [show joinSep sep (x :: y :: rest') = x ++ sep :: joinSep sep (y :: rest')
        from rfl]
      intro hm
      rcases List.mem_append.1 hm with hm' | hm'
      · exact h x (List.mem_cons_self _ _) hm'
      · rcases List.mem_cons.1 hm' with rfl | hm''
        · exact hc rfl
        · exact ih (fun l hl => h l (List.mem_cons_of_mem _ hl)) hm''

theorem joinNL_noEsc :
    ∀ ls : List (List Char), (∀ l ∈ ls, NoEsc l) → NoEsc (joinSep '\n' ls) := by
  intro ls
  induction ls with
  | nil => intro _; exact List.chain'_nil
  | cons x rest ih =>
    intro h
    cases rest with
    | nil => exact h x (List.mem_cons_self _ _)
    | cons y rest' =>
      rw [show joinSep '\n' (x :: y :: rest') = x ++ '\n' :: joinSep '\n' (y :: rest')
        from rfl]
      refine List.chain'_append.2 ⟨h x (List.mem_cons_self _ _), ?_, ?_⟩
      · refine List.chain'_cons'.2 ⟨?_, ih (fun l hl => h l (List.mem_cons_of_mem _ hl))⟩
        intro z _
        rintro ⟨hz, _⟩
        exact absurd hz (by decide)
      · intro a _ b hb
        rw [List.head?_cons, Option.mem_def, Option.some.injEq] at hb
        rintro ⟨_, hn⟩
        rw [← hb] at hn
        exact absurd hn (by decide)

/-! ## C5 — `splitNL` inverts `joinNL` on newline-free lines -/

theorem splitNL_no_nl : ∀ l : List Char, '\n' ∉ l → splitNL l = [l] := by
  intro l
  induction l with
  | nil => intro _; rfl
  | cons c rest ih =>
    intro h
    have hc : ¬ c = '\n' := fun hcc => h (hcc ▸ List.mem_cons_self _ _)
    rw [splitNL, if_neg hc, ih (fun hm => h (List.mem_cons_of_mem _ hm))]

theorem splitNL_append_nl :
    ∀ (l t : List Char), '\n' ∉ l → splitNL (l ++ '\n' :: t) = l :: splitNL t := by
  intro l
  induction l with
  | nil =>
    intro t _
    rw [List.nil_append, splitNL, if_pos rfl]
  | cons c rest ih =>
    intro t h
    have hc : ¬ c = '\n' := fun hcc => h (hcc ▸ List.mem_cons_self _ _)
    rw [List.cons_append, splitNL, if_neg hc,
      ih t (fun hm => h (List.mem_cons_of_mem _ hm))]

theorem splitNL_joinNL :
    ∀ ls : List (List Char), ls ≠ [] → (∀ l ∈ ls, '\n' ∉ l) →
      splitNL (joinNL ls) = ls := by
  intro ls
  induction ls with
  | nil => intro h _; exact absurd rfl h
  | cons x rest ih =>
    intro _ h
    cases rest with
    | nil => exact splitNL_no_nl x (h x (List.mem_cons_self _ _))
    | cons y rest' =>
      rw [show joinNL (x :: y :: rest') = x ++ '\n' :: joinNL (y :: rest') from rfl,
        splitNL_append_nl x _ (h x (List.mem_cons_self _ _)),
        ih (by simp) (fun l hl => h l (List.mem_cons_of_mem _ hl))]

/-! ## C5 — the blank-collapse and trims fix their own output -/

theorem collapseBlanks_chain :
    ∀ ls : List (List Char),
      (∀ b, List.Chain' (fun a b => ¬(a = [] ∧ b = [])) (collapseBlanks b ls)) ∧
      (∀ l, (collapseBlanks true ls).head? = some l → l ≠ []) := by
  intro ls
  induction ls with
  | nil => exact ⟨fun b => List.chain'_nil, fun l h => by simp [collapseBlanks] at h⟩
  | cons x rest ih =>
    constructor
    · intro b
      by_cases hx : x.isEmpty = true
      · cases b with
        | true =>
          rw [show collapseBlanks true (x :: rest) = collapseBlanks true rest from by
            simp [collapseBlanks, hx]]
          exact ih.1 true
        | false =>
          rw [show collapseBlanks false (x :: rest) = [] :: collapseBlanks true rest from by
            simp [collapseBlanks, hx]]
          refine List.chain'_cons'.2 ⟨?_, ih.1 true⟩
          intro y hy
          rintro ⟨_, hy'⟩
          exact ih.2 y (Option.mem_def.1 hy) hy'
      · rw [show collapseBlanks b (x :: rest) = x :: collapseBlanks false rest from by
          simp [collapseBlanks, hx]]
        refine List.chain'_cons'.2 ⟨?_, ih.1 false⟩
        intro y _
        rintro ⟨hx', _⟩
        rw [hx'] at hx
        simp at hx
    · intro l hl
      by_cases hx : x.isEmpty = true
      · rw [show collapseBlanks true (x :: rest) = collapseBlanks true rest from by
          simp [collapseBlanks, hx]] at hl
        exact ih.2 l hl
      · rw [show collapseBlanks true (x :: rest) = x :: collapseBlanks false rest from by
          simp [collapseBlanks, hx]] at hl
        simp only [List.head?_cons, Option.some.injEq] at hl
        subst hl
        intro hnil
        rw [hnil] at hx
        simp at hx

theorem collapseBlanks_eq_self :
    ∀ ls : List (List Char), List.Chain' (fun a b => ¬(a = [] ∧ b = [])) ls →
      collapseBlanks false ls = ls ∧ (ls.head? ≠ some [] → collapseBlanks true ls = ls) := by
  intro ls
  induction ls with
  | nil => exact fun _ => ⟨rfl, fun _ => rfl⟩
  | cons x rest ih =>
    intro hch
    obtain ⟨hpair, hrest⟩ := List.chain'_cons'.1 hch
    obtain ⟨ih1, ih2⟩ := ih hrest
    constructor
    · by_cases hx : x.isEmpty = true
      · rw [show collapseBlanks false (x :: rest) = [] :: collapseBlanks true rest from by
          simp [collapseBlanks, hx]]
        have hx' : x = [] := List.isEmpty_iff.1 hx
        subst hx'
        rw [ih2 ?_]
        intro hh
        rcases hh' : rest.head? with _ | y
        · rw [hh'] at hh; simp at hh
        · rw [hh'] at hh
          simp only [Option.some.injEq] at hh
          exact hpair y (Option.mem_def.2 hh') ⟨rfl, hh⟩
      · rw [show collapseBlanks false (x :: rest) = x :: collapseBlanks false rest from by
          simp [collapseBlanks, hx], ih1]
    · intro hhead
      have hx : x.isEmpty = false := by
        rcases hx' : x with _ | _
        · rw [hx'] at hhead; simp at hhead
        · rfl
      rw [show collapseBlanks true (x :: rest) = x :: collapseBlanks false rest from by
        simp [collapseBlanks, hx], ih1]

theorem trimLead_eq_self {ls : List (List Char)} (h : ls.head? ≠ some []) :
    trimLead ls = ls := by
  unfold trimLead
  refine dropWhileEqSelf (fun a ha => ?_)
  rw [Option.mem_def] at ha
  rcases ha' : a with _ | _
  · rw [ha'] at ha; exact absurd ha h
  · rfl

theorem trimTrail_eq_self {ls : List (List Char)} (h : ls.getLast? ≠ some []) :
    trimTrail ls = ls := by
  unfold trimTrail
  rw [dropWhileEqSelf (fun a ha => ?_), List.reverse_reverse]
  rw [Option.mem_def, List.head?_reverse] at ha
  rcases ha' : a with _ | _
  · rw [ha'] at ha; exact absurd ha h
  · rfl

/-- The shape of the meta-stripping loop's output: empty, or headed by a
non-blank line that is only meta when nothing non-blank follows. -/
theorem stripMeta_shape (dtLow hdLow : List Char) :
    ∀ ls : List (List Char), stripMeta dtLow hdLow ls = [] ∨
      ∃ l rest', stripMeta dtLow hdLow ls = l :: rest' ∧ ¬ (pyStrip l).isEmpty = true ∧
        (isMetaLine dtLow hdLow (lowerStr (pyStrip l)) = true →
          ¬ rest'.any (fun m => !(pyStrip m).isEmpty) = true) := by
  intro ls
  induction ls with
  | nil => exact Or.inl rfl
  | cons l rest ih =>
    by_cases hb : (pyStrip l).isEmpty = true
    · rw [show stripMeta dtLow hdLow (l :: rest) = stripMeta dtLow hdLow rest from by
        simp [stripMeta, hb]]
      exact ih
    · by_cases hm : isMetaLine dtLow hdLow (lowerStr (pyStrip l)) = true
      · by_cases ha : (!rest.isEmpty && rest.any (fun m => !(pyStrip m).isEmpty)) = true
        · rw [show stripMeta dtLow hdLow (l :: rest) = stripMeta dtLow hdLow rest from by
            simp only [stripMeta]
            rw [if_neg hb, if_pos hm, if_pos ha]]
          exact ih
        · rw [show stripMeta dtLow hdLow (l :: rest) = l :: rest from by
            simp only [stripMeta]
            rw [if_neg hb, if_pos hm, if_neg ha]]
          refine Or.inr ⟨l, rest, rfl, hb, fun _ hany => ha ?_⟩
          have hne : rest ≠ [] := by
            intro hnil
            rw [hnil] at hany
            simp at hany
          cases rest with
          | nil => exact absurd rfl hne
          | cons a t =>
            simp only [List.isEmpty_cons, Bool.not_false, Bool.true_and]
            exact hany
      · rw [show stripMeta dtLow hdLow (l :: rest) = l :: rest from by
          simp only [stripMeta]
          rw [if_neg hb, if_neg hm]]
        exact Or.inr ⟨l, rest, rfl, hb, fun hmm => absurd hmm hm⟩

/-! ## C5 — the cleaned lines are fixed points of every cleaning stage -/

/-- Every cleaned line is itself stripped, contains no newline or carriage
return, and contains no literal backslash-n escape. -/
theorem cleanedLines_facts (dt hd raw : List Char) :
    ∀ l ∈ cleanedLines dt hd raw,
      pyStrip l = l ∧ '\n' ∉ l ∧ '\r' ∉ l ∧ NoEsc l := by
  intro l hl
  obtain ⟨l₀, hl₀, rfl⟩ := List.mem_map.1 (cleanedLines_mem dt hd raw l hl)
  refine ⟨pyStrip_idem l₀, ?_, ?_, ?_⟩
  · intro hn
    exact (splitNL_piece_sub _ l₀ hl₀).2 (subMem (pyStrip_sub l₀) hn)
  · intro hcr
    have h1 : '\r' ∈ normalizeNewlines raw :=
      subMem (splitNL_piece_sub _ l₀ hl₀).1 (subMem (pyStrip_sub l₀) hcr)
    rcases replaceEsc_mem _ _ h1 with h2 | h2
    · exact mapCR_no_cr _ h2
    · exact absurd h2 (by decide)
  · exact chainSub (chainSub (replaceEsc_noEsc _) (splitNL_piece_sub _ l₀ hl₀).1)
      (pyStrip_sub l₀)

/-- The cleaned line list has no two consecutive blank lines. -/
theorem cleanedLines_chain (dt hd raw : List Char) :
    List.Chain' (fun a b => ¬(a = [] ∧ b = [])) (cleanedLines dt hd raw) := by
  unfold cleanedLines
  have h1 := (collapseBlanks_chain (stripMeta (lowerStr (pyStrip dt))
    (lowerStr (pyStrip hd)) ((splitNL (normalizeNewlines raw)).map pyStrip))).1 false
  refine chainSub h1 ?_
  exact List.IsInfix.trans (preSub (revDropWhile_pre _ _))
    (sufSub (List.dropWhile_suffix _))

/-- The first cleaned line, when it exists, is non-blank. -/
theorem cleanedLines_head (dt hd raw : List Char) :
    ∀ l, (cleanedLines dt hd raw).head? = some l → l ≠ [] := by
  intro l hl
  have hne : cleanedLines dt hd raw ≠ [] := by
    intro hnil
    rw [hnil] at hl
    exact Option.noConfusion hl
  have hpre : cleanedLines dt hd raw <+:
      trimLead (collapseBlanks false (stripMeta (lowerStr (pyStrip dt))
        (lowerStr (pyStrip hd)) ((splitNL (normalizeNewlines raw)).map pyStrip))) :=
    revDropWhile_pre _ _
  have hT := preHead hpre hne
  rw [hl] at hT
  unfold trimLead at hT
  have hfl := dropWhileHeadFalse hT
  intro hnil
  rw [hnil] at hfl
  simp at hfl

/-- The last cleaned line, when it exists, is non-blank. -/
theorem cleanedLines_last (dt hd raw : List Char) :
    ∀ l, (cleanedLines dt hd raw).getLast? = some l → l ≠ [] := by
  intro l hl
  unfold cleanedLines trimTrail at hl
  rw [List.getLast?_reverse] at hl
  have hfl := dropWhileHeadFalse hl
  intro hnil
  rw [hnil] at hfl
  simp at hfl

/-- When the first cleaned line is still a meta line, it is the only cleaned
line: the stripping loop kept it only because nothing non-blank followed. -/
theorem cleanedLines_meta (dt hd raw l : List Char) (rest : List (List Char))
    (heq : cleanedLines dt hd raw = l :: rest)
    (hm : isMetaLine (lowerStr (pyStrip dt)) (lowerStr (pyStrip hd))
      (lowerStr (pyStrip l)) = true) :
    rest = [] := by
  rcases stripMeta_shape (lowerStr (pyStrip dt)) (lowerStr (pyStrip hd))
      ((splitNL (normalizeNewlines raw)).map pyStrip) with hY | ⟨l', r', hY, hb, hmi⟩
  · unfold cleanedLines at heq
    rw [hY] at heq
    simp [collapseBlanks, trimLead, trimTrail] at heq
  · have hl'_mem : l' ∈ (splitNL (normalizeNewlines raw)).map pyStrip := by
      refine (stripMeta_suffix (lowerStr (pyStrip dt))
        (lowerStr (pyStrip hd)) _).sublist.mem ?_
      rw [hY]
      exact List.mem_cons_self _ _
    have hl'_strip : pyStrip l' = l' := by
      obtain ⟨m₀, _, hm₀⟩ := List.mem_map.1 hl'_mem
      rw [← hm₀]
      exact pyStrip_idem m₀
    have hl'_emp : l'.isEmpty = false := by
      rw [← hl'_strip]
      cases he : (pyStrip l').isEmpty with
      | false => rfl
      | true => exact absurd he hb
    have hcb : collapseBlanks false (l' :: r') = l' :: collapseBlanks false r' := by
      simp [collapseBlanks, hl'_emp]
    have htl : trimLead (l' :: collapseBlanks false r')
        = l' :: collapseBlanks false r' := by
      unfold trimLead
      exact List.dropWhile_cons_of_neg (by simp [hl'_emp])
    unfold cleanedLines at heq
    rw [hY, hcb, htl, trimTrail_cons hl'_emp, List.cons.injEq] at heq
    obtain ⟨h1, hrest⟩ := heq
    subst h1
    have hmi' := hmi hm
    have hall : ∀ m ∈ r', m.isEmpty = true := by
      intro m hmem
      have hm_strip : pyStrip m = m := by
        have hmm : m ∈ (splitNL (normalizeNewlines raw)).map pyStrip := by
          refine (stripMeta_suffix (lowerStr (pyStrip dt))
            (lowerStr (pyStrip hd)) _).sublist.mem ?_
          rw [hY]
          exact List.mem_cons_of_mem _ hmem
        obtain ⟨m₀, _, hm₀⟩ := List.mem_map.1 hmm
        rw [← hm₀]
        exact pyStrip_idem m₀
      cases he : (pyStrip m).isEmpty with
      | true => exact hm_strip ▸ he
      | false =>
        exact absurd (List.any_eq_true.2 ⟨m, hmem, by simp [he]⟩) hmi'
    rw [← hrest]
    exact trimTrail_all_blank (fun m hmZ => hall m (collapseBlanks_mem false r' m hmZ))

/-- C5: the Text Normalizer is idempotent — applying `_clean_section_content`
with the same document title and heading to its own output returns that
output unchanged. -/
theorem clean_idempotent (dt hd raw : List Char) :
    cleanSectionContent dt hd (cleanSectionContent dt hd raw) =
      cleanSectionContent dt hd raw := by
  by_cases hr : raw.isEmpty = true
  · rw [show cleanSectionContent dt hd raw = [] from by
      unfold cleanSectionContent; rw [if_pos hr]]
    rfl
  · rcases hCS : cleanedLines dt hd raw with _ | ⟨l, rest⟩
    · rw [show cleanSectionContent dt hd raw = [] from by
        unfold cleanSectionContent; rw [if_neg hr, hCS]; rfl]
      rfl
    · have hfacts := cleanedLines_facts dt hd raw
      have hl_ne : l ≠ [] := cleanedLines_head dt hd raw l (by rw [hCS]; rfl)
      obtain ⟨z, hz⟩ : ∃ z, (l :: rest).getLast? = some z :=
        ⟨(l :: rest).getLast (by simp), List.getLast?_eq_getLast _ (by simp)⟩
      have hz_ne : z ≠ [] := cleanedLines_last dt hd raw z (by rw [hCS]; exact hz)
      have hz_mem : z ∈ l :: rest := List.mem_of_mem_getLast? (Option.mem_def.2 hz)
      have hJhead : (joinNL (l :: rest)).head? = l.head? := joinSepHead rest hl_ne
      have hJlast : (joinNL (l :: rest)).getLast? = z.getLast? :=
        joinSepLast _ z hz hz_ne
      have hstripJ : pyStrip (joinNL (l :: rest)) = joinNL (l :: rest) := by
        refine pyStrip_eq_self (fun c hc => ?_) (fun c hc => ?_)
        · rw [Option.mem_def, hJhead] at hc
          obtain ⟨l₀, _, heq₀⟩ := List.mem_map.1
            (cleanedLines_mem dt hd raw l (by rw [hCS]; exact List.mem_cons_self _ _))
          exact pyStripHeadNotWS (l := l₀) (by rw [heq₀]; exact hc)
        · rw [Option.mem_def, hJlast] at hc
          obtain ⟨z₀, _, heq₀⟩ := List.mem_map.1
            (cleanedLines_mem dt hd raw z (by rw [hCS]; exact hz_mem))
          exact pyStripLastNotWS (l := z₀) (by rw [heq₀]; exact hc)
      have hclean : cleanSectionContent dt hd raw = joinNL (l :: rest) := by
        unfold cleanSectionContent
        rw [if_neg hr, hCS, hstripJ]
      rw [hclean]
      have hJ_ne : joinNL (l :: rest) ≠ [] := by
        intro hnil
        rw [hnil] at hJhead
        cases l with
        | nil => exact hl_ne rfl
        | cons c l' => simp at hJhead
      have hJ_empty : (joinNL (l :: rest)).isEmpty = false := by
        cases hJJ : joinNL (l :: rest) with
        | nil => exact absurd hJJ hJ_ne
        | cons c t => rfl
      have hnoCR : '\r' ∉ joinNL (l :: rest) :=
        joinSep_not_mem (by decide) _
          (fun m hm => (hfacts m (by rw [hCS]; exact hm)).2.2.1)
      have hnoEsc : NoEsc (joinNL (l :: rest)) :=
        joinNL_noEsc _ (fun m hm => (hfacts m (by rw [hCS]; exact hm)).2.2.2)
      have hnorm : normalizeNewlines (joinNL (l :: rest)) = joinNL (l :: rest) := by
        unfold normalizeNewlines
        rw [replaceCRLF_eq_self _ hnoCR, mapCR_eq_self hnoCR,
          replaceEsc_eq_self _ hnoEsc]
      have hsplit : splitNL (joinNL (l :: rest)) = l :: rest :=
        splitNL_joinNL _ (by simp)
          (fun m hm => (hfacts m (by rw [hCS]; exact hm)).2.1)
      have hmap : (l :: rest).map pyStrip = l :: rest := by
        rw [List.map_congr_left (g := fun m => m)
          (fun m hm => (hfacts m (by rw [hCS]; exact hm)).1)]
        exact List.map_id' _
      have hstrip_l : pyStrip l = l :=
        (hfacts l (by rw [hCS]; exact List.mem_cons_self _ _)).1
      have hl_emp : (pyStrip l).isEmpty = false := by
        rw [hstrip_l]
        cases he : l.isEmpty with
        | false => rfl
        | true => exact absurd (List.isEmpty_iff.1 he) hl_ne
      have hsm : stripMeta (lowerStr (pyStrip dt)) (lowerStr (pyStrip hd)) (l :: rest)
          = l :: rest := by
        by_cases hm : isMetaLine (lowerStr (pyStrip dt)) (lowerStr (pyStrip hd))
            (lowerStr (pyStrip l)) = true
        · have hrest0 : rest = [] := cleanedLines_meta dt hd raw l rest hCS hm
          subst hrest0
          simp only [stripMeta]
          rw [if_neg (by rw [hl_emp]; exact Bool.false_ne_true), if_pos hm,
            if_neg (by simp)]
        · simp only [stripMeta]
          rw [if_neg (by rw [hl_emp]; exact Bool.false_ne_true), if_neg hm]
      have hchain : List.Chain' (fun a b => ¬(a = [] ∧ b = [])) (l :: rest) := by
        rw [← hCS]
        exact cleanedLines_chain dt hd raw
      have hcb : collapseBlanks false (l :: rest) = l :: rest :=
        (collapseBlanks_eq_self _ hchain).1
      have htl : trimLead (l :: rest) = l :: rest :=
        trimLead_eq_self (by
          simp only [List.head?_cons]
          intro hcon
          exact hl_ne (Option.some.inj hcon))
      have htt : trimTrail (l :: rest) = l :: rest :=
        trimTrail_eq_self (by
          rw [hz]
          intro hcon
          exact hz_ne (Option.some.inj hcon))
      unfold cleanSectionContent
      rw [if_neg (by rw [hJ_empty]; exact Bool.false_ne_true)]
      unfold cleanedLines
      rw [hnorm, hsplit, hmap, hsm, hcb, htl, htt, hstripJ]

end PptDoc
